import Mathlib

/-!
Verification development for the pathspire hexagonal puzzle game
(`src/Homepage.tsx`).  The TypeScript source is shallowly embedded:

* `Hex` cube coordinates are triples of integers; JS `number` arithmetic
  in `lineBetween` (linear interpolation and rounding) is modelled exactly
  over `ℚ`, and JS `Math.round` (round half toward positive infinity) is
  `jsRound`.
* A game board is a grid (a finite list of hex keys) together with the
  terrain predicate `isPathable` (colour equals the blank colour).
* `pathBetween` follows the source: a min-priority frontier (the TinyQueue
  binary heap is modelled as a sorted list popping an earliest-pushed
  minimum), `cameFrom` / `costSoFar` maps, neighbour relaxation that skips
  cells that are neither `start`, nor `goal`, nor pathable, and path
  reconstruction by following `cameFrom` back from `goal`.  The JS `while`
  loops run on a fuel bound `cells.length + 1` which is proved sufficient;
  the fuel-exhausted branches are unreachable.
* The turn engine (`endTurn`, `placeBarrier`, the mouse handlers for move
  and teleport, `setupBoard`, `nextLevel`) is embedded with explicit state
  passing.  A JS `TypeError` (reading `.isEmpty` of `undefined` when a
  returned path is empty) is modelled by `Option`: `none` means the
  handler throws.
-/

namespace Pathspire

/-- Cube coordinate of a hex cell, as in class `Hex` of the source.  The
source constructor asserts `q + r + s == 0`; the invariant is carried as a
hypothesis where a claim needs it. -/
structure Hex where
  q : ℤ
  r : ℤ
  s : ℤ
deriving DecidableEq, Repr

namespace Hex

/-- Componentwise sum, `Hex.add`. -/
def add (a b : Hex) : Hex := ⟨a.q + b.q, a.r + b.r, a.s + b.s⟩

/-- Componentwise scaling, `Hex.scale`. -/
def scale (a : Hex) (amount : ℤ) : Hex := ⟨a.q * amount, a.r * amount, a.s * amount⟩

/-- The six unit directions, in the fixed order of `Hex.directions`. -/
def directions : List Hex :=
  [⟨1, -1, 0⟩, ⟨1, 0, -1⟩, ⟨0, 1, -1⟩, ⟨-1, 1, 0⟩, ⟨-1, 0, 1⟩, ⟨0, -1, 1⟩]

/-- Direction at an index (`Hex.directions[index]`); only used with
indices `0..5`. -/
def dirAt (i : ℕ) : Hex := (directions.get? i).getD ⟨0, 0, 0⟩

/-- The neighbour in a given direction, `Hex.neighbor`. -/
def neighbor (h : Hex) (i : ℕ) : Hex := h.add (dirAt i)

/-- All six neighbours, the getter `Hex.neighbors`. -/
def hexNeighbors (h : Hex) : List Hex := directions.map (fun d => h.add d)

/-- The origin `Hex.zero`. -/
def zero : Hex := ⟨0, 0, 0⟩

/-- One side of a ring walk: push the current hex and step in direction
`i`, `j` times (the inner loop of `Hex.ring`); returns the pushed hexes
and the final position. -/
def ringSide (h : Hex) (i : ℕ) : ℕ → List Hex × Hex
  | 0 => ([], h)
  | j + 1 =>
    let rest := ringSide (h.neighbor i) i j
    (h :: rest.1, rest.2)

/-- The ring of radius `radius` around `center` (`Hex.ring`): start at
`center + directions[4] * radius` and walk each of the six directions
`radius` steps. -/
def ring (center : Hex) (radius : ℕ) : List Hex :=
  if radius = 0 then [center]
  else
    ((List.range 6).foldl
      (fun (acc : List Hex × Hex) i =>
        let side := ringSide acc.2 i radius
        (acc.1 ++ side.1, side.2))
      ([], center.add ((dirAt 4).scale radius))).1

/-- Concatenated rings `startRadius ≤ i < endRadius` (`Hex.rings`). -/
def rings (center : Hex) (startRadius endRadius : ℕ) : List Hex :=
  (List.range' startRadius (endRadius - startRadius)).flatMap (fun i => ring center i)

/-- Hex distance `(|Δq| + |Δr| + |Δs|) / 2` of `Hex.distance`, over `ℚ`
exactly as JS divides numbers. -/
def distance (a b : Hex) : ℚ :=
  ((a.q - b.q).natAbs + (a.r - b.r).natAbs + (a.s - b.s).natAbs : ℕ) / 2

/-- Unhalved integer distance `|Δq| + |Δr| + |Δs|`, used to reason about
`distance` without rational division. -/
def dist2 (a b : Hex) : ℕ :=
  (a.q - b.q).natAbs + (a.r - b.r).natAbs + (a.s - b.s).natAbs

/-- JS `Math.round`: round half toward positive infinity. -/
def jsRound (x : ℚ) : ℤ := ⌊x + 1 / 2⌋

/-- Linear interpolation `a + (b - a) * t` of the local `lerp`. -/
def lerp (a b t : ℚ) : ℚ := a + (b - a) * t

/-- Rounding step of `cubeLerp`: round each axis, then recompute the axis
with the largest rounding error from the other two. -/
def cubeRound (x y z : ℚ) : Hex :=
  let rx := jsRound x
  let ry := jsRound y
  let rz := jsRound z
  let xDiff := |(rx : ℚ) - x|
  let yDiff := |(ry : ℚ) - y|
  let zDiff := |(rz : ℚ) - z|
  if xDiff > yDiff ∧ xDiff > zDiff then ⟨-ry - rz, ry, rz⟩
  else if yDiff > zDiff then ⟨rx, -rx - rz, rz⟩
  else ⟨rx, ry, -rx - ry⟩

/-- The local `cubeLerp` of `Hex.lineBetween`. -/
def cubeLerp (a b : Hex) (t : ℚ) : Hex :=
  cubeRound (lerp a.q b.q t) (lerp a.r b.r t) (lerp a.s b.s t)

/-- `Hex.lineBetween`: sample the segment at `i / distance` for
`0 ≤ i < distance` (the JS loop `i < distance` runs `⌈distance⌉` times),
then push `b`. -/
def lineBetween (a b : Hex) : List Hex :=
  let d := distance a b
  ((List.range ⌈d⌉₊).map (fun (i : ℕ) => cubeLerp a b (1 / d * (i : ℚ)))) ++ [b]

end Hex

/-- Helper: the output of `cubeRound` always satisfies the cube invariant,
because the recomputed axis is defined as minus the sum of the other two. -/
lemma cubeRound_sum_eq_zero (x y z : ℚ) :
    (Hex.cubeRound x y z).q + (Hex.cubeRound x y z).r + (Hex.cubeRound x y z).s = 0 := by
  unfold Hex.cubeRound
  dsimp only
  split_ifs <;> simp <;> ring

/-- C7: in `lineBetween`, every interpolated sample is rounded by
recomputing exactly one axis from the other two; the recomputed axis has
the (weakly) largest rounding error, with ties resolved by keeping the
higher-priority axis in the order `q > r > s` (so `q` is recomputed only
when its error is strictly largest, `r` when its error is at least `q`'s
and strictly above `s`'s, and `s` otherwise); consequently every
coordinate returned by `lineBetween` satisfies `q + r + s = 0`. -/
theorem c7_lineBetween_rounding (x y z : ℚ) :
    ((Hex.cubeRound x y z).q + (Hex.cubeRound x y z).r + (Hex.cubeRound x y z).s = 0 ∧
      ((Hex.cubeRound x y z = ⟨-(Hex.jsRound y) - Hex.jsRound z, Hex.jsRound y, Hex.jsRound z⟩ ∧
          |(Hex.jsRound x : ℚ) - x| > |(Hex.jsRound y : ℚ) - y| ∧
          |(Hex.jsRound x : ℚ) - x| > |(Hex.jsRound z : ℚ) - z|) ∨
        (Hex.cubeRound x y z = ⟨Hex.jsRound x, -(Hex.jsRound x) - Hex.jsRound z, Hex.jsRound z⟩ ∧
          |(Hex.jsRound y : ℚ) - y| ≥ |(Hex.jsRound x : ℚ) - x| ∧
          |(Hex.jsRound y : ℚ) - y| > |(Hex.jsRound z : ℚ) - z|) ∨
        (Hex.cubeRound x y z = ⟨Hex.jsRound x, Hex.jsRound y, -(Hex.jsRound x) - Hex.jsRound y⟩ ∧
          |(Hex.jsRound z : ℚ) - z| ≥ |(Hex.jsRound x : ℚ) - x| ∧
          |(Hex.jsRound z : ℚ) - z| ≥ |(Hex.jsRound y : ℚ) - y|))) ∧
    ∀ a b : Hex, b.q + b.r + b.s = 0 →
      ∀ h ∈ Hex.lineBetween a b, h.q + h.r + h.s = 0 := by
  constructor
  · refine ⟨cubeRound_sum_eq_zero x y z, ?_⟩
    unfold Hex.cubeRound
    dsimp only
    split_ifs with h1 h2
    · exact Or.inl ⟨rfl, h1.1, h1.2⟩
    · rw [not_and_or, not_lt, not_lt] at h1
      refine Or.inr (Or.inl ⟨rfl, ?_, h2⟩)
      rcases h1 with h | h
      · exact h
      · exact le_trans h (le_of_lt h2)
    · rw [not_and_or, not_lt, not_lt] at h1
      rw [not_lt] at h2
      refine Or.inr (Or.inr ⟨rfl, ?_, h2⟩)
      rcases h1 with h | h
      · exact le_trans h h2
      · exact h
  · intro a b hb h hmem
    unfold Hex.lineBetween at hmem
    rcases List.mem_append.mp hmem with hmem | hmem
    · rcases List.mem_map.mp hmem with ⟨i, _, rfl⟩
      exact cubeRound_sum_eq_zero _ _ _
    · rcases List.mem_singleton.mp hmem with rfl
      exact hb

/-- Witness for C7 at a concrete segment. -/
theorem c7_lineBetween_rounding_witness :
    ((2 : ℤ) + (-1) + (-1) = 0) ∧
    ∀ h ∈ Hex.lineBetween ⟨0, 0, 0⟩ ⟨2, -1, -1⟩, h.q + h.r + h.s = 0 :=
  ⟨by decide, (c7_lineBetween_rounding 0 0 0).2 ⟨0, 0, 0⟩ ⟨2, -1, -1⟩ (by decide)⟩

/-- C8: for cube coordinates satisfying the invariant, `distance a b` is a
non-negative integer `n` and `lineBetween a b` has length `n + 1`. -/
theorem c8_distance_lineBetween_length (a b : Hex)
    (ha : a.q + a.r + a.s = 0) (hb : b.q + b.r + b.s = 0) :
    ∃ n : ℕ, Hex.distance a b = (n : ℚ) ∧ (Hex.lineBetween a b).length = n + 1 := by
  have hdvd : 2 ∣ Hex.dist2 a b := by
    unfold Hex.dist2
    omega
  obtain ⟨n, hn⟩ := hdvd
  have hdist : Hex.distance a b = (n : ℚ) := by
    unfold Hex.distance
    have : (a.q - b.q).natAbs + (a.r - b.r).natAbs + (a.s - b.s).natAbs = 2 * n := hn
    rw [this]
    push_cast
    ring
  refine ⟨n, hdist, ?_⟩
  have hceil : ⌈Hex.distance a b⌉₊ = n := by
    rw [hdist]
    exact Nat.ceil_natCast n
  unfold Hex.lineBetween
  dsimp only
  rw [List.length_append, List.length_map, List.length_range, hceil]
  rfl

/-- Witness for C8 at a concrete pair of coordinates. -/
theorem c8_distance_lineBetween_length_witness :
    ((0 : ℤ) + 0 + 0 = 0) ∧ ((3 : ℤ) + (-2) + (-1) = 0) ∧
    ∃ n : ℕ, Hex.distance ⟨0, 0, 0⟩ ⟨3, -2, -1⟩ = (n : ℚ) ∧
      (Hex.lineBetween ⟨0, 0, 0⟩ ⟨3, -2, -1⟩).length = n + 1 :=
  ⟨by decide, by decide,
    c8_distance_lineBetween_length ⟨0, 0, 0⟩ ⟨3, -2, -1⟩ (by decide) (by decide)⟩

/-! ### The pathfinder (`Game.pathBetween`)

A `Board` abstracts exactly what `pathBetween` reads from the game: the
set of grid keys (cells exist in the `HexGrid`) and the terrain predicate
`Cell.isPathable`.  Cells are identified with their hex keys (the grid
holds exactly one `Cell` object per key, and all comparisons in the
source are object identity). -/

/-- A grid snapshot: the cell keys and the pathable (terrain is blank)
predicate. -/
structure Board where
  cells : List Hex
  pathable : Hex → Bool

/-- In-grid neighbours of a cell, `Cell.neighbors`: the six hex
neighbours filtered to those present in the grid, in direction order. -/
def bNeighbors (b : Board) (h : Hex) : List Hex :=
  (Hex.hexNeighbors h).filter (fun x => decide (x ∈ b.cells))

/-- Eligibility of an expansion target: the negation of the skip guard
`nextCell !== start && nextCell !== goal && !nextCell.isPathable` —
start and goal are always eligible, other cells must be pathable. -/
def elig (b : Board) (start goal h : Hex) : Bool :=
  decide (h = start) || decide (h = goal) || b.pathable h

/-- Search state of `pathBetween`: the priority frontier and the
`cameFrom` / `costSoFar` maps.  `cameFrom h = some none` is the
`cameFrom.set(start, undefined)` marker; `none` means the key is absent. -/
structure SState where
  frontier : List (Hex × ℕ)
  cameFrom : Hex → Option (Option Hex)
  costSoFar : Hex → Option ℕ

/-- Pointwise map update (JS `Map.set`). -/
def updF {α : Type} (f : Hex → α) (k : Hex) (v : α) : Hex → α :=
  fun h => if h = k then v else f h

/-- Push into the priority queue: insert behind every entry of priority
at most the new one, so popping the head always yields an element of
minimal priority (first-pushed among equals). -/
def pqPush : List (Hex × ℕ) → Hex × ℕ → List (Hex × ℕ)
  | [], e => [e]
  | x :: xs, e => if x.2 ≤ e.2 then x :: pqPush xs e else e :: x :: xs

/-- Relaxation of one neighbour `next` of the popped cell `current`
(the body of `current.neighbors.forEach`). -/
def relax (b : Board) (start goal current : Hex) (st : SState) (next : Hex) : SState :=
  if elig b start goal next = false then st
  else
    let newCost := (st.costSoFar current).getD 0 + 1
    match st.costSoFar next with
    | some prevCost =>
      if newCost < prevCost then
        ⟨pqPush st.frontier (next, newCost),
         updF st.cameFrom next (some (some current)),
         updF st.costSoFar next (some newCost)⟩
      else st
    | none =>
      ⟨pqPush st.frontier (next, newCost),
       updF st.cameFrom next (some (some current)),
       updF st.costSoFar next (some newCost)⟩

/-- Expand the popped cell over all of its in-grid neighbours. -/
def expand (b : Board) (start goal current : Hex) (st : SState) : SState :=
  (bNeighbors b current).foldl (relax b start goal current) st

/-- The `while (frontier.length > 0)` loop of `pathBetween`, with fuel.
The fuel bound used by `pathBetween` is proved sufficient, so the `none`
(fuel-exhausted) branch is unreachable there. -/
def searchLoop (b : Board) (start goal : Hex) : ℕ → SState → Option SState
  | 0, _ => none
  | fuel + 1, st =>
    match st.frontier with
    | [] => some st
    | (current, _) :: rest =>
      if current = goal then some { st with frontier := rest }
      else searchLoop b start goal fuel (expand b start goal current { st with frontier := rest })

/-- Initial search state: `frontier.push(start, 0)`,
`cameFrom.set(start, undefined)`, `costSoFar.set(start, 0)`. -/
def initState (start : Hex) : SState :=
  ⟨[(start, 0)], updF (fun _ => none) start (some none), updF (fun _ => none) start (some 0)⟩

/-- Path reconstruction: `while (current != start) path.push(current);
current = cameFrom.get(current)`, then reverse.  The fallback branch (a
broken parent chain, on which the source would crash or loop) is
unreachable under the search invariants. -/
def reconstruct (cf : Hex → Option (Option Hex)) (start : Hex) :
    ℕ → Hex → List Hex → List Hex
  | 0, _, acc => acc.reverse
  | fuel + 1, current, acc =>
    if current = start then acc.reverse
    else
      match cf current with
      | some (some parent) => reconstruct cf start fuel parent (acc ++ [current])
      | _ => acc.reverse

/-- `Game.pathBetween`: run the search; return `undefined` (`none`) when
`cameFrom` never reached the goal, and the reconstructed path (from the
step after `start` to `goal` inclusive) otherwise. -/
def pathBetween (b : Board) (start goal : Hex) : Option (List Hex) :=
  match searchLoop b start goal (b.cells.length + 1) (initState start) with
  | none => none
  | some st =>
    match st.cameFrom goal with
    | none => none
    | some _ => some (reconstruct st.cameFrom start (b.cells.length + 1) goal [])

/-! ### Path predicates used to state pathfinder correctness -/

/-- A step chain starting at `anchor`: each cell is an in-grid neighbour
of the previous one and is an eligible expansion target. -/
def chainOK (b : Board) (start goal : Hex) : Hex → List Hex → Bool
  | _, [] => true
  | prev, h :: rest =>
    decide (h ∈ bNeighbors b prev) && elig b start goal h && chainOK b start goal h rest

/-- Endpoint of a chain: its last cell, or the anchor for the empty
chain. -/
def endOfFrom (anchor : Hex) (l : List Hex) : Hex := l.getLastD anchor

/-- Reachability in exactly `n` eligible steps from `start`. -/
inductive ReachN (b : Board) (start goal : Hex) : ℕ → Hex → Prop
  | refl : ReachN b start goal 0 start
  | step {n : ℕ} {h h' : Hex} : ReachN b start goal n h → h' ∈ bNeighbors b h →
      elig b start goal h' = true → ReachN b start goal (n + 1) h'

/-- C10: for every cell of the grid, `pathBetween(c, c)` finds the empty
path (the first loop iteration pops `start`, which equals `goal`, and the
reconstruction loop exits immediately); it does not return `undefined`,
and this holds whatever the terrain of `c` is. -/
theorem c10_pathBetween_self (b : Board) (c : Hex) (_hc : c ∈ b.cells) :
    pathBetween b c c = some [] := by
  unfold pathBetween
  simp [searchLoop, initState, reconstruct, updF]

/-- Witness for C10 on a concrete one-cell board whose single cell is a
barrier. -/
theorem c10_pathBetween_self_witness :
    (⟨0, 0, 0⟩ : Hex) ∈ (Board.mk [⟨0, 0, 0⟩] (fun _ => false)).cells ∧
    pathBetween (Board.mk [⟨0, 0, 0⟩] (fun _ => false)) ⟨0, 0, 0⟩ ⟨0, 0, 0⟩ = some [] :=
  ⟨by decide, c10_pathBetween_self (Board.mk [⟨0, 0, 0⟩] (fun _ => false)) ⟨0, 0, 0⟩ (by decide)⟩

/-! ### The game state and turn engine -/

/-- Cell colours used by the source: `BLANK` (the dark background, the
only pathable terrain), the orange mountain ring, the cyan `BARRIER`. -/
inductive Color where
  | blank
  | orange
  | barrier
deriving DecidableEq, Repr

/-- The `Game.state` flag. -/
inductive GState where
  | game
  | success
  | failure
  | stuck
deriving DecidableEq, Repr

/-- The `Enemy` interface: a reference to its occupying cell. -/
structure Enemy where
  cell : Hex
deriving DecidableEq, Repr

/-- The `Game` aggregate: grid keys, terrain colours, player and exit
cells, enemies, teleport charges (an unchecked JS number, so an integer),
level and state flag. -/
structure GameState where
  cells : List Hex
  color : Hex → Color
  playerCell : Hex
  exitCell : Hex
  enemies : List Enemy
  numTeleports : ℤ
  level : ℕ
  state : GState

/-- `Cell.isPathable`: the colour is `BLANK`. -/
def isPathableAt (g : GameState) (h : Hex) : Bool :=
  decide (g.color h = Color.blank)

/-- The board snapshot `pathBetween` reads from a game. -/
def GameState.board (g : GameState) : Board :=
  ⟨g.cells, fun h => isPathableAt g h⟩

/-- `Cell.isEmpty`: pathable, not the player's cell, not any enemy's
cell (evaluated against the game's current enemy list). -/
def cellIsEmpty (g : GameState) (h : Hex) : Bool :=
  isPathableAt g h && decide (h ≠ g.playerCell) &&
    !(g.enemies.any (fun e => decide (e.cell = h)))

/-- `Cell.circle(radius)`: hexes of `rings 0 radius` present in the
grid. -/
def circle (g : GameState) (h : Hex) (radius : ℕ) : List Hex :=
  (Hex.rings h 0 radius).filter (fun x => decide (x ∈ g.cells))

/-- `Cell.lineTo`: walk `lineBetween`, collecting cells while they exist
in the grid and are pathable, stopping at the first failure. -/
def lineTo (g : GameState) (a b : Hex) : List Hex :=
  (Hex.lineBetween a b).takeWhile (fun h => decide (h ∈ g.cells) && isPathableAt g h)

/-- `Game.placeBarrier`: colour every cell of `start.lineTo(end)` with
the barrier colour. -/
def placeBarrier (g : GameState) (a b : Hex) : GameState :=
  { g with color := fun h => if h ∈ lineTo g a b then Color.barrier else g.color h }

/-- The enemy-movement loop of `Game.endTurn`.  The game's enemy array is
mutated in place while being iterated, so the state threads the whole
list: `done` is the already-processed front of `g.enemies`, the second
list argument the unprocessed rest.  Returns `none` when the source would
throw (`path[0].isEmpty` with `path = []`, which happens exactly when an
enemy starts on the player's cell), otherwise the final state together
with the captured flag (an enemy ended on the player's cell, which stops
the loop immediately). -/
def enemyLoopAux (g : GameState) : List Enemy → List Enemy → Option (GameState × Bool)
  | _, [] => some (g, false)
  | done, e :: rest =>
    match pathBetween g.board e.cell g.playerCell with
    | none =>
      if e.cell = g.playerCell then some (g, true)
      else enemyLoopAux g (done ++ [e]) rest
    | some [] => none
    | some (c :: _) =>
      if c = g.playerCell ∨ cellIsEmpty g c = true then
        let g' := { g with enemies := done ++ ⟨c⟩ :: rest }
        if c = g.playerCell then some (g', true)
        else enemyLoopAux g' (done ++ [(⟨c⟩ : Enemy)]) rest
      else
        if e.cell = g.playerCell then some (g, true)
        else enemyLoopAux g (done ++ [e]) rest

/-- `Game.endTurn`: success check, enemy loop (with capture check after
each enemy), then the stuck check `numTeleports === 0 &&
pathBetween(playerCell, exitCell) === undefined`. -/
def endTurn (g : GameState) : Option GameState :=
  if g.playerCell = g.exitCell then some { g with state := GState.success }
  else
    match enemyLoopAux g [] g.enemies with
    | none => none
    | some (g', captured) =>
      if captured then some { g' with state := GState.failure }
      else if g.numTeleports = 0 ∧ pathBetween g.board g.playerCell g.exitCell = none then
        some { g' with state := GState.stuck }
      else some g'

/-- The default mouse-down branch of `GameView.onMouseDown` (a move
request): compute the path from the player to the target; if the path is
truthy and its first step `isEmpty`, move the player one step and resolve
the turn.  A returned empty path (target = player cell) is truthy in JS,
and reading `path[0].isEmpty` of `undefined` throws: that is the `none`
result. -/
def moveAction (g : GameState) (target : Hex) : Option GameState :=
  match pathBetween g.board g.playerCell target with
  | none => some g
  | some [] => none
  | some (c :: _) =>
    if cellIsEmpty g c = true then endTurn { g with playerCell := c }
    else some g

/-- The teleport branch of `GameView.onMouseDown`: if the clicked cell is
within `playerCell.circle(6)`, relocate the player there, decrement the
charge and resolve the turn — the handler checks neither emptiness of the
target nor the remaining charges. -/
def teleportAction (g : GameState) (target : Hex) : Option GameState :=
  if target ∈ circle g g.playerCell 6 then
    endTurn { g with playerCell := target, numTeleports := g.numTeleports - 1 }
  else some g

/-- Enemy placement: `spawnableCells.pop()` repeated `numEnemies` times,
skipping `undefined` pops — i.e. take from the back of the shuffled
list. -/
def takeSpawns (n : ℕ) (l : List Hex) : List Enemy :=
  (l.reverse.take n).map (fun h => ⟨h⟩)

/-- `Game.setupBoard`, parameterised by the `sampleSize` shuffle (an
arbitrary permutation function supplied by the caller): rebuild the grid
over `rings 0 8`, paint the mountain `rings 0 2` orange, fix exit
`(3,-6,3)` and player `(-3,6,-3)`, clear enemies, and spawn `level`
enemies on shuffled cells that are empty, not the exit and not adjacent
to the player. -/
def setupBoard (shuffle : List Hex → List Hex) (g : GameState) : GameState :=
  let cells := Hex.rings Hex.zero 0 8
  let color := fun h => if h ∈ Hex.rings Hex.zero 0 2 then Color.orange else Color.blank
  let exitC : Hex := ⟨3, -6, 3⟩
  let playerC : Hex := ⟨-3, 6, -3⟩
  let g1 : GameState :=
    { g with cells := cells, color := color, exitCell := exitC, playerCell := playerC,
             enemies := [] }
  let playerNbrs := bNeighbors g1.board playerC
  let spawnable :=
    shuffle (cells.filter (fun c => cellIsEmpty g1 c && decide (c ≠ exitC) &&
      decide (c ∉ playerNbrs)))
  { g1 with enemies := takeSpawns g1.level spawnable }

/-- `Game.nextLevel`: bump or reset the level, restore one teleport
charge and the in-progress state, then re-run setup. -/
def nextLevel (shuffle : List Hex → List Hex) (g : GameState) : GameState :=
  setupBoard shuffle
    { g with level := if g.state = GState.success then g.level + 1 else 1,
             numTeleports := 1, state := GState.game }

/-! ### Concrete states exercising the handlers -/

/-- A three-cell row: the player at the origin, a barrier cell beside it,
an open exit beyond. -/
def gRow : GameState :=
  { cells := [⟨0, 0, 0⟩, ⟨1, -1, 0⟩, ⟨2, -2, 0⟩]
    color := fun h => if h = ⟨1, -1, 0⟩ then Color.barrier else Color.blank
    playerCell := ⟨0, 0, 0⟩
    exitCell := ⟨2, -2, 0⟩
    enemies := []
    numTeleports := 2
    level := 1
    state := GState.game }

/-- C2 (failing input): clicking the player's own cell makes
`pathBetween` return the empty path, which is truthy in JS, and the move
handler then reads `path[0].isEmpty` of `undefined` — a `TypeError`,
modelled as `none` — instead of the silent no-op the specification
requires for every in-grid target. -/
theorem c2_move_self_click_crashes :
    pathBetween gRow.board gRow.playerCell gRow.playerCell = some [] ∧
    moveAction gRow gRow.playerCell = none := by
  constructor
  · decide
  · rfl

/-- A finished (failed) game in which the player stands on the exit. -/
def gTerminal : GameState :=
  { cells := [⟨0, 0, 0⟩, ⟨1, -1, 0⟩]
    color := fun _ => Color.blank
    playerCell := ⟨0, 0, 0⟩
    exitCell := ⟨0, 0, 0⟩
    enemies := []
    numTeleports := 1
    level := 1
    state := GState.failure }

/-- C9 (failing input): the engine operations do not check the state
flag; calling `endTurn` in the terminal state `failure` mutates the state
flag (here to `success`), instead of being rejected as a no-op. -/
theorem c9_endTurn_mutates_terminal_state :
    gTerminal.state = GState.failure ∧
    (endTurn gTerminal).map (fun g => g.state) = some GState.success := by
  constructor
  · rfl
  · rfl

/-- C5 (failing input): with teleport selected, clicking the in-range
barrier cell `(1,-1,0)` relocates the player onto it and decrements the
charge, although the cell is not `isEmpty` — the handler checks only
membership in `circle(6)`; the `isEmpty` filter and the charge check
exist only in the UI (target highlighting and button disabling). -/
theorem c5_teleport_onto_barrier_cell :
    isPathableAt gRow ⟨1, -1, 0⟩ = false ∧
    (⟨1, -1, 0⟩ : Hex) ∈ circle gRow gRow.playerCell 6 ∧
    (teleportAction gRow ⟨1, -1, 0⟩).map (fun g => (g.playerCell, g.numTeleports, g.state)) =
      some (⟨1, -1, 0⟩, 1, GState.game) := by
  refine ⟨by decide, by decide, ?_⟩
  decide

/-! ### Lemmas about the enemy loop -/

/-- The enemy loop touches only the `enemies` field. -/
lemma enemyLoopAux_frame : ∀ (rest done : List Enemy) (g g1 : GameState) (cap : Bool),
    enemyLoopAux g done rest = some (g1, cap) →
    g1.cells = g.cells ∧ g1.color = g.color ∧ g1.playerCell = g.playerCell ∧
    g1.exitCell = g.exitCell ∧ g1.numTeleports = g.numTeleports ∧
    g1.level = g.level ∧ g1.state = g.state := by
  intro rest
  induction rest with
  | nil =>
    intro done g g1 cap h
    simp only [enemyLoopAux, Option.some.injEq, Prod.mk.injEq] at h
    obtain ⟨rfl, rfl⟩ := h
    exact ⟨rfl, rfl, rfl, rfl, rfl, rfl, rfl⟩
  | cons e rest ih =>
    intro done g g1 cap h
    simp only [enemyLoopAux] at h
    split at h
    · split at h
      · simp only [Option.some.injEq, Prod.mk.injEq] at h
        obtain ⟨rfl, rfl⟩ := h
        exact ⟨rfl, rfl, rfl, rfl, rfl, rfl, rfl⟩
      · exact ih (done ++ [e]) g g1 cap h
    · exact absurd h (by simp)
    · split at h
      · split at h
        · simp only [Option.some.injEq, Prod.mk.injEq] at h
          obtain ⟨rfl, rfl⟩ := h
          exact ⟨rfl, rfl, rfl, rfl, rfl, rfl, rfl⟩
        · rename_i c tail hx hgu hne
          exact ih (done ++ [(⟨c⟩ : Enemy)])
            { g with enemies := done ++ (⟨c⟩ : Enemy) :: rest } g1 cap h
      · split at h
        · simp only [Option.some.injEq, Prod.mk.injEq] at h
          obtain ⟨rfl, rfl⟩ := h
          exact ⟨rfl, rfl, rfl, rfl, rfl, rfl, rfl⟩
        · exact ih (done ++ [e]) g g1 cap h

/-- Dropping strictly past a differing position yields the same suffix. -/
lemma drop_append_cons {α : Type} (l1 l2 : List α) (x y : α) (n : ℕ) (hn : l1.length < n) :
    (l1 ++ x :: l2).drop n = (l1 ++ y :: l2).drop n := by
  induction l1 generalizing n with
  | nil =>
    cases n with
    | zero => omega
    | succ m => simp
  | cons a l ih =>
    cases n with
    | zero => omega
    | succ m =>
      simp only [List.cons_append, List.drop_succ_cons]
      exact ih m (by simpa using hn)

/-- When the enemy loop reports a capture, the capturing enemy sits at
some index `i` past the already-processed ones, it occupies the player's
cell, and every enemy after index `i` is exactly as it was before the
call. -/
lemma enemyLoopAux_capture : ∀ (rest done : List Enemy) (g g1 : GameState),
    g.enemies = done ++ rest → enemyLoopAux g done rest = some (g1, true) →
    ∃ i, done.length ≤ i ∧ i < g.enemies.length ∧
      g1.enemies.length = g.enemies.length ∧
      (∃ e, g1.enemies[i]? = some e ∧ e.cell = g.playerCell) ∧
      g1.enemies.drop (i + 1) = g.enemies.drop (i + 1) := by
  intro rest
  induction rest with
  | nil =>
    intro done g g1 hen h
    simp [enemyLoopAux] at h
  | cons e rest ih =>
    intro done g g1 hen h
    simp only [enemyLoopAux] at h
    split at h
    · split at h
      · rename_i hpath hcell
        simp only [Option.some.injEq, Prod.mk.injEq] at h
        obtain ⟨rfl, -⟩ := h
        refine ⟨done.length, le_refl _, by simp [hen], rfl, ⟨e, ?_, hcell⟩, rfl⟩
        rw [hen, List.getElem?_append_right (le_refl _)]
        simp
      · obtain ⟨i, hi1, hi2, hi3, hi4, hi5⟩ :=
          ih (done ++ [e]) g g1 (by rw [hen]; simp) h
        refine ⟨i, le_trans (by simp) hi1, hi2, hi3, hi4, hi5⟩
    · exact absurd h (by simp)
    · rename_i c tail hx
      split at h
      · rename_i hgu
        split at h
        · rename_i hcp
          simp only [Option.some.injEq, Prod.mk.injEq] at h
          obtain ⟨rfl, -⟩ := h
          refine ⟨done.length, le_refl _, by simp [hen], by simp [hen], ?_, ?_⟩
          · refine ⟨⟨c⟩, ?_, hcp⟩
            rw [List.getElem?_append_right (le_refl _)]
            simp
          · rw [hen]
            exact drop_append_cons done rest _ _ _ (by omega)
        · rename_i hcp
          obtain ⟨i, hi1, hi2, hi3, hi4, hi5⟩ :=
            ih (done ++ [(⟨c⟩ : Enemy)])
              { g with enemies := done ++ (⟨c⟩ : Enemy) :: rest } g1 (by simp) h
          simp only [List.length_append, List.length_cons, List.length_singleton] at hi1 hi2 hi3
          refine ⟨i, by omega, by simp [hen]; omega, by simp [hen]; omega, hi4, ?_⟩
          rw [hi5, hen]
          exact drop_append_cons done rest _ _ _ (by omega)
      · split at h
        · rename_i hgu hcell
          simp only [Option.some.injEq, Prod.mk.injEq] at h
          obtain ⟨rfl, -⟩ := h
          refine ⟨done.length, le_refl _, by simp [hen], rfl, ⟨e, ?_, hcell⟩, rfl⟩
          rw [hen, List.getElem?_append_right (le_refl _)]
          simp
        · obtain ⟨i, hi1, hi2, hi3, hi4, hi5⟩ :=
            ih (done ++ [e]) g g1 (by rw [hen]; simp) h
          refine ⟨i, le_trans (by simp) hi1, hi2, hi3, hi4, hi5⟩

/-- C4: when `endTurn` ends in `failure` from an in-progress state, the
enemies were processed in list order and processing stopped at the
capturing enemy: some enemy at index `i` now occupies the player's cell,
and every enemy after index `i` still occupies the cell it had before the
call (the player also has not moved). -/
theorem c4_endTurn_capture_stops_processing (g g' : GameState)
    (hpe : g.playerCell ≠ g.exitCell) (hgs : g.state = GState.game)
    (hrun : endTurn g = some g') (hfail : g'.state = GState.failure) :
    g'.playerCell = g.playerCell ∧
    ∃ i, i < g.enemies.length ∧ g'.enemies.length = g.enemies.length ∧
      (∃ e, g'.enemies[i]? = some e ∧ e.cell = g.playerCell) ∧
      g'.enemies.drop (i + 1) = g.enemies.drop (i + 1) := by
  unfold endTurn at hrun
  rw [if_neg hpe] at hrun
  split at hrun
  · exact absurd hrun (by simp)
  · rename_i g1 captured heq
    by_cases hc : captured = true
    · subst hc
      rw [if_pos rfl] at hrun
      simp only [Option.some.injEq] at hrun
      subst hrun
      obtain ⟨-, -, hpl, -, -, -, -⟩ := enemyLoopAux_frame g.enemies [] g g1 true heq
      obtain ⟨i, -, hi2, hi3, hi4, hi5⟩ :=
        enemyLoopAux_capture g.enemies [] g g1 (by simp) heq
      exact ⟨hpl, i, hi2, hi3, hi4, hi5⟩
    · rw [if_neg hc] at hrun
      obtain ⟨-, -, -, -, -, -, hst⟩ :=
        enemyLoopAux_frame g.enemies [] g g1 captured heq
      split at hrun
      · simp only [Option.some.injEq] at hrun
        subst hrun
        simp at hfail
      · simp only [Option.some.injEq] at hrun
        subst hrun
        rw [hst, hgs] at hfail
        simp at hfail

/-- Witness for C4: a concrete two-enemy game where the first enemy
steps onto the player; the second enemy keeps its cell. -/
def gCapture : GameState :=
  { cells := [⟨0, 0, 0⟩, ⟨1, -1, 0⟩, ⟨2, -2, 0⟩, ⟨3, -3, 0⟩]
    color := fun _ => Color.blank
    playerCell := ⟨0, 0, 0⟩
    exitCell := ⟨2, -2, 0⟩
    enemies := [⟨⟨1, -1, 0⟩⟩, ⟨⟨3, -3, 0⟩⟩]
    numTeleports := 1
    level := 1
    state := GState.game }

/-- Witness for C4 at `gCapture`. -/
theorem c4_endTurn_capture_stops_processing_witness :
    gCapture.playerCell ≠ gCapture.exitCell ∧ gCapture.state = GState.game ∧
    ({ gCapture with enemies := [⟨⟨0, 0, 0⟩⟩, ⟨⟨3, -3, 0⟩⟩],
                     state := GState.failure } : GameState).playerCell = gCapture.playerCell ∧
    ∃ i, i < gCapture.enemies.length ∧
      ({ gCapture with enemies := [⟨⟨0, 0, 0⟩⟩, ⟨⟨3, -3, 0⟩⟩],
                       state := GState.failure } : GameState).enemies.length =
        gCapture.enemies.length ∧
      (∃ e, ({ gCapture with enemies := [⟨⟨0, 0, 0⟩⟩, ⟨⟨3, -3, 0⟩⟩],
                             state := GState.failure } : GameState).enemies[i]? = some e ∧
        e.cell = gCapture.playerCell) ∧
      ({ gCapture with enemies := [⟨⟨0, 0, 0⟩⟩, ⟨⟨3, -3, 0⟩⟩],
                       state := GState.failure } : GameState).enemies.drop (i + 1) =
        gCapture.enemies.drop (i + 1) :=
  ⟨by decide, rfl,
    c4_endTurn_capture_stops_processing gCapture
      { gCapture with enemies := [⟨⟨0, 0, 0⟩⟩, ⟨⟨3, -3, 0⟩⟩], state := GState.failure }
      (by decide) rfl (by rfl) rfl⟩

/-- C6: from an in-progress state where the player is not on the exit and
the enemy loop finishes without a capture, `endTurn` sets the state to
`stuck` exactly when the teleport charges equal zero and `pathBetween`
from the player cell to the exit cell returns the not-found signal;
otherwise the state remains `game`. -/
theorem c6_endTurn_stuck_iff (g g1 : GameState) (hgs : g.state = GState.game)
    (hpe : g.playerCell ≠ g.exitCell)
    (hloop : enemyLoopAux g [] g.enemies = some (g1, false)) :
    ∃ g', endTurn g = some g' ∧
      (g'.state = GState.stuck ↔
        (g.numTeleports = 0 ∧ pathBetween g.board g.playerCell g.exitCell = none)) ∧
      (¬(g.numTeleports = 0 ∧ pathBetween g.board g.playerCell g.exitCell = none) →
        g'.state = GState.game) := by
  obtain ⟨-, -, -, -, -, -, hst⟩ := enemyLoopAux_frame g.enemies [] g g1 false hloop
  unfold endTurn
  rw [if_neg hpe, hloop]
  by_cases hcond : g.numTeleports = 0 ∧ pathBetween g.board g.playerCell g.exitCell = none
  · refine ⟨{ g1 with state := GState.stuck }, by simp [hcond], by simp [hcond], ?_⟩
    intro hn
    exact absurd hcond hn
  · refine ⟨g1, by simp [hcond], ?_, fun _ => by rw [hst, hgs]⟩
    rw [hst, hgs]
    simp [hcond]

/-- Witness for C6 at the concrete state `gRow` (no enemies, one charge
left, an open route to the exit). -/
theorem c6_endTurn_stuck_iff_witness :
    gRow.state = GState.game ∧ gRow.playerCell ≠ gRow.exitCell ∧
    ∃ g', endTurn gRow = some g' ∧
      (g'.state = GState.stuck ↔
        (gRow.numTeleports = 0 ∧ pathBetween gRow.board gRow.playerCell gRow.exitCell = none)) ∧
      (¬(gRow.numTeleports = 0 ∧ pathBetween gRow.board gRow.playerCell gRow.exitCell = none) →
        g'.state = GState.game) :=
  ⟨rfl, by decide, c6_endTurn_stuck_iff gRow gRow rfl (by decide) rfl⟩

/-! ### The no-enemy-on-barrier invariant (C3) -/

/-- A three-cell row with an enemy on the middle cell. -/
def gEnemyLine : GameState :=
  { cells := [⟨0, 0, 0⟩, ⟨1, -1, 0⟩, ⟨2, -2, 0⟩]
    color := fun _ => Color.blank
    playerCell := ⟨0, 0, 0⟩
    exitCell := ⟨2, -2, 0⟩
    enemies := [⟨⟨1, -1, 0⟩⟩]
    numTeleports := 1
    level := 1
    state := GState.game }

/-- Concrete evaluation: the line from `(1,-1,0)` to `(2,-2,0)`. -/
lemma lineBetween_eval_step : Hex.lineBetween ⟨1, -1, 0⟩ ⟨2, -2, 0⟩ = [⟨1, -1, 0⟩, ⟨2, -2, 0⟩] := by
  have hd : Hex.distance ⟨1, -1, 0⟩ ⟨2, -2, 0⟩ = 1 := by
    unfold Hex.distance
    norm_num
  unfold Hex.lineBetween
  dsimp only
  rw [hd]
  norm_num [Hex.cubeLerp, Hex.lerp, Hex.cubeRound, Hex.jsRound, List.range_succ]

/-- Concrete evaluation: the one-point line at `(2,-2,0)`. -/
lemma lineBetween_eval_self : Hex.lineBetween ⟨2, -2, 0⟩ ⟨2, -2, 0⟩ = [⟨2, -2, 0⟩] := by
  have hd : Hex.distance ⟨2, -2, 0⟩ ⟨2, -2, 0⟩ = 0 := by
    unfold Hex.distance
    norm_num
  unfold Hex.lineBetween
  dsimp only
  rw [hd]
  norm_num

/-- Concrete evaluation of `lineTo` across the enemy's cell. -/
lemma lineTo_gEnemyLine_step :
    lineTo gEnemyLine ⟨1, -1, 0⟩ ⟨2, -2, 0⟩ = [⟨1, -1, 0⟩, ⟨2, -2, 0⟩] := by
  unfold lineTo
  rw [lineBetween_eval_step]
  decide

/-- Concrete evaluation of `lineTo` avoiding the enemy's cell. -/
lemma lineTo_gEnemyLine_self :
    lineTo gEnemyLine ⟨2, -2, 0⟩ ⟨2, -2, 0⟩ = [⟨2, -2, 0⟩] := by
  unfold lineTo
  rw [lineBetween_eval_self]
  decide

/-- C3 fails as stated: `placeBarrier` paints every pathable cell of the
line, including the cell an enemy occupies (`lineTo` checks only terrain,
not occupancy), so after the operation an enemy occupies a barrier
cell. -/
theorem c3_placeBarrier_paints_enemy_cell :
    (∀ e ∈ gEnemyLine.enemies, isPathableAt gEnemyLine e.cell = true) ∧
    (placeBarrier gEnemyLine ⟨1, -1, 0⟩ ⟨2, -2, 0⟩).enemies = [⟨⟨1, -1, 0⟩⟩] ∧
    isPathableAt (placeBarrier gEnemyLine ⟨1, -1, 0⟩ ⟨2, -2, 0⟩) ⟨1, -1, 0⟩ = false := by
  refine ⟨by decide, rfl, ?_⟩
  unfold placeBarrier isPathableAt
  dsimp only
  rw [lineTo_gEnemyLine_step]
  decide

/-- Emptiness implies pathable terrain. -/
lemma cellIsEmpty_pathable {g : GameState} {h : Hex} (hx : cellIsEmpty g h = true) :
    isPathableAt g h = true := by
  unfold cellIsEmpty at hx
  simp only [Bool.and_eq_true] at hx
  exact hx.1.1

/-- The enemy loop keeps every enemy on pathable terrain, provided the
player's cell is pathable: an enemy only ever moves to the player's cell
or to an `isEmpty` (hence pathable) cell, and terrain never changes. -/
lemma enemyLoopAux_pathable : ∀ (rest done : List Enemy) (g g1 : GameState) (cap : Bool),
    g.enemies = done ++ rest →
    (∀ e ∈ g.enemies, isPathableAt g e.cell = true) →
    isPathableAt g g.playerCell = true →
    enemyLoopAux g done rest = some (g1, cap) →
    ∀ e ∈ g1.enemies, isPathableAt g1 e.cell = true := by
  intro rest
  induction rest with
  | nil =>
    intro done g g1 cap hen hpa hpl h
    simp only [enemyLoopAux, Option.some.injEq, Prod.mk.injEq] at h
    obtain ⟨rfl, -⟩ := h
    exact hpa
  | cons e rest ih =>
    intro done g g1 cap hen hpa hpl h
    simp only [enemyLoopAux] at h
    split at h
    · split at h
      · simp only [Option.some.injEq, Prod.mk.injEq] at h
        obtain ⟨rfl, -⟩ := h
        exact hpa
      · exact ih (done ++ [e]) g g1 cap (by rw [hen]; simp) hpa hpl h
    · exact absurd h (by simp)
    · rename_i c tail hx
      split at h
      · rename_i hgu
        have hcpath : isPathableAt g c = true := by
          rcases hgu with hgu | hgu
          · rw [hgu]; exact hpl
          · exact cellIsEmpty_pathable hgu
        have hmem : ∀ e2 ∈ done ++ (⟨c⟩ : Enemy) :: rest,
            isPathableAt g e2.cell = true := by
          intro e2 he2
          rcases List.mem_append.mp he2 with hd | hc2
          · exact hpa e2 (by rw [hen]; exact List.mem_append.mpr (Or.inl hd))
          · rcases List.mem_cons.mp hc2 with rfl | hr
            · exact hcpath
            · exact hpa e2
                (by rw [hen]; exact List.mem_append.mpr (Or.inr (List.mem_cons.mpr (Or.inr hr))))
        split at h
        · simp only [Option.some.injEq, Prod.mk.injEq] at h
          obtain ⟨rfl, -⟩ := h
          exact hmem
        · exact ih (done ++ [(⟨c⟩ : Enemy)])
            { g with enemies := done ++ (⟨c⟩ : Enemy) :: rest } g1 cap
            (by simp) hmem hpl h
      · split at h
        · simp only [Option.some.injEq, Prod.mk.injEq] at h
          obtain ⟨rfl, -⟩ := h
          exact hpa
        · exact ih (done ++ [e]) g g1 cap (by rw [hen]; simp) hpa hpl h

/-- `endTurn` keeps every enemy on pathable terrain when the player's
cell is pathable. -/
lemma endTurn_enemies_pathable {g g1 : GameState}
    (hpa : ∀ e ∈ g.enemies, isPathableAt g e.cell = true)
    (hpl : isPathableAt g g.playerCell = true)
    (h : endTurn g = some g1) :
    ∀ e ∈ g1.enemies, isPathableAt g1 e.cell = true := by
  unfold endTurn at h
  split at h
  · simp only [Option.some.injEq] at h
    subst h
    exact hpa
  · split at h
    · exact absurd h (by simp)
    · rename_i g2 cap heq
      have h2 := enemyLoopAux_pathable g.enemies [] g g2 cap (by simp) hpa hpl heq
      split at h
      · simp only [Option.some.injEq] at h
        subst h
        exact h2
      · split at h
        · simp only [Option.some.injEq] at h
          subst h
          exact h2
        · simp only [Option.some.injEq] at h
          subst h
          exact h2

/-- Membership in the spawned enemy list comes from the spawnable pool. -/
lemma takeSpawns_mem {n : ℕ} {l : List Hex} {e : Enemy} (he : e ∈ takeSpawns n l) :
    e.cell ∈ l := by
  unfold takeSpawns at he
  rcases List.mem_map.mp he with ⟨h, hh, rfl⟩
  exact List.mem_reverse.mp (List.mem_of_mem_take hh)

/-- C3 amended: the no-enemy-on-barrier invariant holds after
`setupBoard` and `nextLevel` (for any shuffle that returns elements of
its input), is preserved unconditionally by the move action, by the
teleport action provided the teleport target is pathable, by
`placeBarrier` provided the painted line does not cross an enemy's cell,
and by `endTurn` provided the player's cell is pathable. -/
theorem c3_amended_no_enemy_on_barrier :
    (∀ (shuffle : List Hex → List Hex), (∀ l x, x ∈ shuffle l → x ∈ l) →
      ∀ g : GameState, ∀ e ∈ (setupBoard shuffle g).enemies,
        isPathableAt (setupBoard shuffle g) e.cell = true) ∧
    (∀ (shuffle : List Hex → List Hex), (∀ l x, x ∈ shuffle l → x ∈ l) →
      ∀ g : GameState, ∀ e ∈ (nextLevel shuffle g).enemies,
        isPathableAt (nextLevel shuffle g) e.cell = true) ∧
    (∀ g g1 : GameState, ∀ t : Hex,
      (∀ e ∈ g.enemies, isPathableAt g e.cell = true) →
      moveAction g t = some g1 →
      ∀ e ∈ g1.enemies, isPathableAt g1 e.cell = true) ∧
    (∀ g g1 : GameState, ∀ t : Hex,
      (∀ e ∈ g.enemies, isPathableAt g e.cell = true) →
      isPathableAt g t = true →
      teleportAction g t = some g1 →
      ∀ e ∈ g1.enemies, isPathableAt g1 e.cell = true) ∧
    (∀ g : GameState, ∀ a b : Hex,
      (∀ e ∈ g.enemies, isPathableAt g e.cell = true) →
      (∀ e ∈ g.enemies, e.cell ∉ lineTo g a b) →
      ∀ e ∈ (placeBarrier g a b).enemies,
        isPathableAt (placeBarrier g a b) e.cell = true) ∧
    (∀ g g1 : GameState,
      (∀ e ∈ g.enemies, isPathableAt g e.cell = true) →
      isPathableAt g g.playerCell = true →
      endTurn g = some g1 →
      ∀ e ∈ g1.enemies, isPathableAt g1 e.cell = true) := by
  have hsetup : ∀ (shuffle : List Hex → List Hex), (∀ l x, x ∈ shuffle l → x ∈ l) →
      ∀ g : GameState, ∀ e ∈ (setupBoard shuffle g).enemies,
        isPathableAt (setupBoard shuffle g) e.cell = true := by
    intro shuffle hsh g e he
    unfold setupBoard at he ⊢
    dsimp only at he ⊢
    have hc := takeSpawns_mem he
    have hc2 := hsh _ _ hc
    rcases List.mem_filter.mp hc2 with ⟨-, hprop⟩
    simp only [Bool.and_eq_true] at hprop
    have hp2 := cellIsEmpty_pathable hprop.1.1
    exact hp2
  refine ⟨hsetup, ?_, ?_, ?_, ?_, fun g g1 => endTurn_enemies_pathable⟩
  · intro shuffle hsh g e he
    exact hsetup shuffle hsh _ e he
  · intro g g1 t hpa h e he
    unfold moveAction at h
    split at h
    · simp only [Option.some.injEq] at h
      subst h
      exact hpa e he
    · exact absurd h (by simp)
    · rename_i c tail hx
      split at h
      · rename_i hempty
        have hpl2 : isPathableAt { g with playerCell := c }
            ({ g with playerCell := c } : GameState).playerCell = true :=
          cellIsEmpty_pathable (g := g) hempty
        exact endTurn_enemies_pathable (g := { g with playerCell := c }) hpa hpl2 h e he
      · simp only [Option.some.injEq] at h
        subst h
        exact hpa e he
  · intro g g1 t hpa hpt h e he
    unfold teleportAction at h
    split at h
    · have hpl2 : isPathableAt { g with playerCell := t, numTeleports := g.numTeleports - 1 }
          ({ g with playerCell := t, numTeleports := g.numTeleports - 1 } : GameState).playerCell =
            true := hpt
      exact endTurn_enemies_pathable
        (g := { g with playerCell := t, numTeleports := g.numTeleports - 1 })
        hpa hpl2 h e he
    · simp only [Option.some.injEq] at h
      subst h
      exact hpa e he
  · intro g a b hpa hline e he
    have hc : isPathableAt g e.cell = true := hpa e he
    unfold placeBarrier isPathableAt at hc ⊢
    dsimp only at hc ⊢
    rw [if_neg (hline e he)]
    exact hc

/-- Witness for the amended C3: a barrier line that avoids the enemy's
cell preserves the invariant on a concrete state. -/
theorem c3_amended_no_enemy_on_barrier_witness :
    (∀ e ∈ gEnemyLine.enemies, isPathableAt gEnemyLine e.cell = true) ∧
    (∀ e ∈ gEnemyLine.enemies, e.cell ∉ lineTo gEnemyLine ⟨2, -2, 0⟩ ⟨2, -2, 0⟩) ∧
    ∀ e ∈ (placeBarrier gEnemyLine ⟨2, -2, 0⟩ ⟨2, -2, 0⟩).enemies,
      isPathableAt (placeBarrier gEnemyLine ⟨2, -2, 0⟩ ⟨2, -2, 0⟩) e.cell = true :=
  ⟨by decide, by rw [lineTo_gEnemyLine_self]; decide,
    c3_amended_no_enemy_on_barrier.2.2.2.2.1 gEnemyLine ⟨2, -2, 0⟩ ⟨2, -2, 0⟩
      (by decide) (by rw [lineTo_gEnemyLine_self]; decide)⟩

/-! ### Pathfinder correctness (C1): basic lemmas -/

/-- Reading an updated map at the updated key. -/
lemma updF_same {α : Type} (f : Hex → α) (k : Hex) (v : α) : updF f k v k = v := by
  simp [updF]

/-- Reading an updated map away from the updated key. -/
lemma updF_other {α : Type} (f : Hex → α) {k h : Hex} (v : α) (hne : h ≠ k) :
    updF f k v h = f h := by
  simp [updF, hne]

/-- Membership in the priority queue after a push. -/
lemma pqPush_mem {l : List (Hex × ℕ)} {e x : Hex × ℕ} :
    x ∈ pqPush l e ↔ x ∈ l ∨ x = e := by
  induction l with
  | nil => simp [pqPush]
  | cons y ys ih =>
    unfold pqPush
    split_ifs with hle
    · simp [ih]
      tauto
    · simp
      tauto

/-- A push grows the queue by one entry. -/
lemma pqPush_length (l : List (Hex × ℕ)) (e : Hex × ℕ) :
    (pqPush l e).length = l.length + 1 := by
  induction l with
  | nil => rfl
  | cons y ys ih =>
    unfold pqPush
    split_ifs with hle
    · simp [ih]
    · simp

/-- A push keeps the queue sorted by priority. -/
lemma pqPush_sorted {l : List (Hex × ℕ)} {e : Hex × ℕ}
    (h : List.Pairwise (fun x y => x.2 ≤ y.2) l) :
    List.Pairwise (fun x y => x.2 ≤ y.2) (pqPush l e) := by
  induction l with
  | nil => simp [pqPush]
  | cons y ys ih =>
    rcases List.pairwise_cons.mp h with ⟨hy, hys⟩
    unfold pqPush
    split_ifs with hle
    · refine List.pairwise_cons.mpr ⟨?_, ih hys⟩
      intro z hz
      rcases pqPush_mem.mp hz with hz | rfl
      · exact hy z hz
      · exact hle
    · refine List.pairwise_cons.mpr ⟨?_, h⟩
      intro z hz
      rcases List.mem_cons.mp hz with rfl | hz
      · exact le_of_not_le hle
      · exact le_trans (le_of_not_le hle) (hy z hz)

/-- In-grid neighbours lie in the grid. -/
lemma bNeighbors_mem_cells {b : Board} {h h2 : Hex} (hm : h2 ∈ bNeighbors b h) :
    h2 ∈ b.cells := by
  rcases List.mem_filter.mp hm with ⟨-, hdec⟩
  exact of_decide_eq_true hdec

/-- In-grid neighbours are hex neighbours. -/
lemma bNeighbors_mem_hex {b : Board} {h h2 : Hex} (hm : h2 ∈ bNeighbors b h) :
    h2 ∈ Hex.hexNeighbors h :=
  (List.mem_filter.mp hm).1

/-- Cells of the grid that are hex neighbours are in-grid neighbours. -/
lemma mem_bNeighbors {b : Board} {h h2 : Hex} (h1 : h2 ∈ Hex.hexNeighbors h)
    (h2c : h2 ∈ b.cells) : h2 ∈ bNeighbors b h :=
  List.mem_filter.mpr ⟨h1, decide_eq_true h2c⟩

/-- Number of grid cells with a recorded cost. -/
def costedCard (b : Board) (st : SState) : ℕ :=
  (b.cells.toFinset.filter (fun h => st.costSoFar h ≠ none)).card

/-- Loop measure: frontier length plus the number of grid cells without a
recorded cost.  It drops by exactly one per loop iteration. -/
def measureOf (b : Board) (st : SState) : ℕ :=
  st.frontier.length + (b.cells.toFinset.filter (fun h => st.costSoFar h = none)).card

/-- Invariant of the `cameFrom` / `costSoFar` maps alone (enough for path
reconstruction): start is recorded at cost zero, keys of the two maps
agree, every parent link is one eligible neighbour step with costs off by
one, and every recorded cost is the exact shortest eligible-step distance
from start, bounded by the number of costed cells. -/
structure RInv (b : Board) (s gl : Hex) (cf : Hex → Option (Option Hex))
    (cost : Hex → Option ℕ) : Prop where
  cost_start : cost s = some 0
  came_start : cf s = some none
  keys_eq : ∀ h : Hex, h ≠ s → (cost h = none ↔ cf h = none)
  came_shape : ∀ h : Hex, h ≠ s → ∀ o, cf h = some o → ∃ p, o = some p
  came_step : ∀ h p : Hex, cf h = some (some p) →
    h ∈ bNeighbors b p ∧ elig b s gl h = true ∧
    ∃ c : ℕ, cost p = some c ∧ cost h = some (c + 1)
  cost_reach : ∀ (h : Hex) (c : ℕ), cost h = some c → ReachN b s gl c h
  cost_min : ∀ (h : Hex) (c : ℕ), cost h = some c → ∀ n, ReachN b s gl n h → c ≤ n
  cost_grid : ∀ (h : Hex) (c : ℕ), cost h = some c → h ∈ b.cells

/-- Full loop invariant at the top of each `while` iteration. -/
structure SInv (b : Board) (s gl : Hex) (st : SState) : Prop where
  base : RInv b s gl st.cameFrom st.costSoFar
  cost_bound : ∀ (h : Hex) (c : ℕ), st.costSoFar h = some c → c < costedCard b st
  sorted : List.Pairwise (fun x y => x.2 ≤ y.2) st.frontier
  front_cost : ∀ hp ∈ st.frontier, st.costSoFar hp.1 = some hp.2
  expanded : ∀ h : Hex, st.costSoFar h ≠ none → (∀ p : ℕ, (h, p) ∉ st.frontier) →
    ∀ h2 ∈ bNeighbors b h, elig b s gl h2 = true → st.costSoFar h2 ≠ none
  goal_front : st.costSoFar gl ≠ none → ∃ p : ℕ, (gl, p) ∈ st.frontier

/-- Invariant in the middle of expanding the popped cell `cur` (of cost
`c`): `done` is the already-relaxed front of `cur`'s neighbour list. -/
structure MInv (b : Board) (s gl cur : Hex) (c : ℕ) (done : List Hex) (st : SState) : Prop where
  base : RInv b s gl st.cameFrom st.costSoFar
  cost_bound : ∀ (h : Hex) (c2 : ℕ), st.costSoFar h = some c2 → c2 < costedCard b st
  sorted : List.Pairwise (fun x y => x.2 ≤ y.2) st.frontier
  front_cost : ∀ hp ∈ st.frontier, st.costSoFar hp.1 = some hp.2
  lowb : ∀ hp ∈ st.frontier, c ≤ hp.2
  cost_cur : st.costSoFar cur = some c
  exp_other : ∀ h : Hex, st.costSoFar h ≠ none → (∀ p : ℕ, (h, p) ∉ st.frontier) → h ≠ cur →
    ∀ h2 ∈ bNeighbors b h, elig b s gl h2 = true → st.costSoFar h2 ≠ none
  exp_done : ∀ h2 ∈ done, elig b s gl h2 = true → st.costSoFar h2 ≠ none
  goal_front : st.costSoFar gl ≠ none → ∃ p : ℕ, (gl, p) ∈ st.frontier

/-- Boundary lemma: any eligible chain from start to an uncosted cell
must cross the frontier below its length, or pass through the exception
cell `x` strictly below its length.  (During expansion `x` is the popped
cell, which is costed but not yet fully expanded.) -/
lemma frontier_block (b : Board) (s gl x : Hex) (st : SState)
    (hstart : st.costSoFar s = some 0)
    (hfc : ∀ hp ∈ st.frontier, st.costSoFar hp.1 = some hp.2)
    (hmin : ∀ (h : Hex) (c : ℕ), st.costSoFar h = some c → ∀ n, ReachN b s gl n h → c ≤ n)
    (hexp : ∀ h : Hex, st.costSoFar h ≠ none → (∀ p : ℕ, (h, p) ∉ st.frontier) → h ≠ x →
      ∀ h2 ∈ bNeighbors b h, elig b s gl h2 = true → st.costSoFar h2 ≠ none) :
    ∀ (n : ℕ) (h : Hex), ReachN b s gl n h → st.costSoFar h = none →
      (∃ hp ∈ st.frontier, hp.2 < n) ∨ (∃ m, m < n ∧ ReachN b s gl m x) := by
  intro n h hr
  induction hr with
  | refl =>
    intro hnone
    rw [hstart] at hnone
    cases hnone
  | step hr0 hnb hel ih =>
    rename_i m h0 h1
    intro hnone
    cases hc0 : st.costSoFar h0 with
    | none =>
      rcases ih hc0 with ⟨hp, hmem, hlt⟩ | ⟨k, hk, hrx⟩
      · exact Or.inl ⟨hp, hmem, Nat.lt_succ_of_lt hlt⟩
      · exact Or.inr ⟨k, Nat.lt_succ_of_lt hk, hrx⟩
    | some c0 =>
      by_cases hin : ∃ p, (h0, p) ∈ st.frontier
      · obtain ⟨p, hp⟩ := hin
        have hfc0 := hfc _ hp
        rw [hc0] at hfc0
        have hpc : p = c0 := Option.some.inj hfc0.symm
        have hle : c0 ≤ m := hmin h0 c0 hc0 m hr0
        exact Or.inl ⟨(h0, p), hp, by omega⟩
      · push_neg at hin
        by_cases hx : h0 = x
        · exact Or.inr ⟨m, Nat.lt_succ_self m, hx ▸ hr0⟩
        · have := hexp h0 (by rw [hc0]; simp) hin hx h1 hnb hel
          exact absurd hnone this

/-- Relaxing one neighbour preserves the mid-expansion invariant and the
loop measure (a pushed cell was uncosted, so the frontier grows exactly
as the uncosted set shrinks; a would-be cost decrease is impossible). -/
lemma relax_minv (b : Board) (s gl cur : Hex) (c : ℕ) (done tail : List Hex) (next : Hex)
    (st : SState) (hnb : bNeighbors b cur = done ++ next :: tail)
    (hinv : MInv b s gl cur c done st) :
    MInv b s gl cur c (done ++ [next]) (relax b s gl cur st next) ∧
    measureOf b (relax b s gl cur st next) = measureOf b st := by
  have hnextnb : next ∈ bNeighbors b cur := by rw [hnb]; simp
  by_cases hel : elig b s gl next = true
  · unfold relax
    rw [if_neg (by simp [hel])]
    dsimp only
    cases hcnext : st.costSoFar next with
    | some prev =>
      dsimp only
      have hreach : ReachN b s gl (c + 1) next :=
        ReachN.step (hinv.base.cost_reach cur c hinv.cost_cur) hnextnb hel
      have hle : prev ≤ c + 1 := hinv.base.cost_min next prev hcnext _ hreach
      have hnotlt : ¬ ((st.costSoFar cur).getD 0 + 1 < prev) := by
        rw [hinv.cost_cur, Option.getD_some]
        omega
      rw [if_neg hnotlt]
      refine ⟨⟨hinv.base, hinv.cost_bound, hinv.sorted, hinv.front_cost, hinv.lowb,
        hinv.cost_cur, hinv.exp_other, ?_, hinv.goal_front⟩, rfl⟩
      intro h2 hm he2
      rcases List.mem_append.mp hm with hd | hn
      · exact hinv.exp_done h2 hd he2
      · rcases List.mem_singleton.mp hn with rfl
        rw [hcnext]
        simp
    | none =>
      dsimp only
      rw [hinv.cost_cur]
      simp only [Option.getD_some]
      have hne_s : next ≠ s := by
        intro hh
        rw [hh, hinv.base.cost_start] at hcnext
        cases hcnext
      have hne_cur : next ≠ cur := by
        intro hh
        rw [hh, hinv.cost_cur] at hcnext
        cases hcnext
      have hreach : ReachN b s gl (c + 1) next :=
        ReachN.step (hinv.base.cost_reach cur c hinv.cost_cur) hnextnb hel
      have hfro : ∀ p, (next, p) ∉ st.frontier := by
        intro p hp
        have hthis := hinv.front_cost _ hp
        rw [hcnext] at hthis
        cases hthis
      have hmin_next : ∀ n, ReachN b s gl n next → c + 1 ≤ n := by
        intro n hn
        by_contra hlt
        push_neg at hlt
        rcases frontier_block b s gl cur st hinv.base.cost_start hinv.front_cost
            hinv.base.cost_min hinv.exp_other n next hn hcnext with
          ⟨hp, hmem, hplt⟩ | ⟨m, hm, hrx⟩
        · have := hinv.lowb hp hmem
          omega
        · have := hinv.base.cost_min cur c hinv.cost_cur m hrx
          omega
      have hnextcells : next ∈ b.cells := bNeighbors_mem_cells hnextnb
      have hmem_old : next ∈ b.cells.toFinset.filter (fun h => st.costSoFar h = none) :=
        Finset.mem_filter.mpr ⟨List.mem_toFinset.mpr hnextcells, hcnext⟩
      have hnot_mem : next ∉ b.cells.toFinset.filter (fun h => st.costSoFar h ≠ none) := by
        simp [Finset.mem_filter, hcnext]
      have hcard : costedCard b ⟨pqPush st.frontier (next, c + 1),
          updF st.cameFrom next (some (some cur)),
          updF st.costSoFar next (some (c + 1))⟩ = costedCard b st + 1 := by
        unfold costedCard
        have hfil : b.cells.toFinset.filter
            (fun h => updF st.costSoFar next (some (c + 1)) h ≠ none)
            = insert next (b.cells.toFinset.filter (fun h => st.costSoFar h ≠ none)) := by
          ext x
          simp only [Finset.mem_filter, Finset.mem_insert]
          by_cases hx : x = next
          · subst hx
            rw [updF_same]
            simp [List.mem_toFinset.mpr hnextcells]
          · rw [updF_other _ _ hx]
            simp [hx]
        rw [hfil, Finset.card_insert_of_not_mem hnot_mem]
      refine ⟨⟨⟨?_, ?_, ?_, ?_, ?_, ?_, ?_, ?_⟩, ?_, ?_, ?_, ?_, ?_, ?_, ?_, ?_⟩, ?_⟩
      · dsimp only
        rw [updF_other _ _ (Ne.symm hne_s)]
        exact hinv.base.cost_start
      · dsimp only
        rw [updF_other _ _ (Ne.symm hne_s)]
        exact hinv.base.came_start
      · intro h hhs
        dsimp only
        by_cases hh : h = next
        · subst hh
          rw [updF_same, updF_same]
          simp
        · rw [updF_other _ _ hh, updF_other _ _ hh]
          exact hinv.base.keys_eq h hhs
      · intro h hhs o ho
        dsimp only at ho
        by_cases hh : h = next
        · subst hh
          rw [updF_same] at ho
          exact ⟨cur, (Option.some.inj ho).symm⟩
        · rw [updF_other _ _ hh] at ho
          exact hinv.base.came_shape h hhs o ho
      · intro h p hcf
        dsimp only at hcf ⊢
        by_cases hh : h = next
        · subst hh
          rw [updF_same] at hcf
          have hpc : cur = p := Option.some.inj (Option.some.inj hcf)
          subst hpc
          refine ⟨hnextnb, hel, c, ?_, ?_⟩
          · rw [updF_other _ _ (Ne.symm hne_cur)]
            exact hinv.cost_cur
          · rw [updF_same]
        · rw [updF_other _ _ hh] at hcf
          obtain ⟨hnb2, hel2, c0, hcp, hch⟩ := hinv.base.came_step h p hcf
          have hpne : p ≠ next := by
            intro hh2
            rw [hh2, hcnext] at hcp
            cases hcp
          refine ⟨hnb2, hel2, c0, ?_, ?_⟩
          · rw [updF_other _ _ hpne]
            exact hcp
          · rw [updF_other _ _ hh]
            exact hch
      · intro h c2 hc
        dsimp only at hc
        by_cases hh : h = next
        · subst hh
          rw [updF_same] at hc
          have hcc : c + 1 = c2 := Option.some.inj hc
          subst hcc
          exact hreach
        · rw [updF_other _ _ hh] at hc
          exact hinv.base.cost_reach h c2 hc
      · intro h c2 hc n hn
        dsimp only at hc
        by_cases hh : h = next
        · subst hh
          rw [updF_same] at hc
          have hcc : c + 1 = c2 := Option.some.inj hc
          subst hcc
          exact hmin_next n hn
        · rw [updF_other _ _ hh] at hc
          exact hinv.base.cost_min h c2 hc n hn
      · intro h c2 hc
        dsimp only at hc
        by_cases hh : h = next
        · subst hh
          exact hnextcells
        · rw [updF_other _ _ hh] at hc
          exact hinv.base.cost_grid h c2 hc
      · intro h c2 hc
        dsimp only at hc
        rw [hcard]
        by_cases hh : h = next
        · subst hh
          rw [updF_same] at hc
          have hcc : c + 1 = c2 := Option.some.inj hc
          subst hcc
          have := hinv.cost_bound cur c hinv.cost_cur
          omega
        · rw [updF_other _ _ hh] at hc
          have := hinv.cost_bound h c2 hc
          omega
      · exact pqPush_sorted hinv.sorted
      · intro hp hmem
        dsimp only at hmem ⊢
        rcases pqPush_mem.mp hmem with hm | rfl
        · have hold := hinv.front_cost hp hm
          have hne2 : hp.1 ≠ next := by
            intro hh
            rw [hh, hcnext] at hold
            cases hold
          rw [updF_other _ _ hne2]
          exact hold
        · exact updF_same st.costSoFar next (some (c + 1))
      · intro hp hmem
        dsimp only at hmem
        rcases pqPush_mem.mp hmem with hm | rfl
        · exact hinv.lowb hp hm
        · exact Nat.le_succ c
      · dsimp only
        rw [updF_other _ _ (Ne.symm hne_cur)]
        exact hinv.cost_cur
      · intro h hcn hnin hne h2 hnb2 hel2
        dsimp only at hcn hnin ⊢
        have hne_next : h ≠ next := by
          intro hh
          subst hh
          exact hnin (c + 1) (pqPush_mem.mpr (Or.inr rfl))
        rw [updF_other _ _ hne_next] at hcn
        have hnin_old : ∀ p, (h, p) ∉ st.frontier := fun p hp =>
          hnin p (pqPush_mem.mpr (Or.inl hp))
        have hold := hinv.exp_other h hcn hnin_old hne h2 hnb2 hel2
        by_cases hh2 : h2 = next
        · subst hh2
          rw [updF_same]
          simp
        · rw [updF_other _ _ hh2]
          exact hold
      · intro h2 hm hel2
        dsimp only
        by_cases hh2 : h2 = next
        · subst hh2
          rw [updF_same]
          simp
        · rw [updF_other _ _ hh2]
          rcases List.mem_append.mp hm with hd | hn
          · exact hinv.exp_done h2 hd hel2
          · exact absurd (List.mem_singleton.mp hn) hh2
      · intro hg
        dsimp only at hg ⊢
        by_cases hgn : gl = next
        · subst hgn
          exact ⟨c + 1, pqPush_mem.mpr (Or.inr rfl)⟩
        · rw [updF_other _ _ hgn] at hg
          obtain ⟨p, hp⟩ := hinv.goal_front hg
          exact ⟨p, pqPush_mem.mpr (Or.inl hp)⟩
      · have hpos : 0 < (b.cells.toFinset.filter (fun h => st.costSoFar h = none)).card :=
          Finset.card_pos.mpr ⟨next, hmem_old⟩
        have hfil2 : b.cells.toFinset.filter
            (fun h => updF st.costSoFar next (some (c + 1)) h = none)
            = (b.cells.toFinset.filter (fun h => st.costSoFar h = none)).erase next := by
          ext x
          simp only [Finset.mem_filter, Finset.mem_erase]
          by_cases hx : x = next
          · subst hx
            rw [updF_same]
            simp
          · rw [updF_other _ _ hx]
            tauto
        unfold measureOf
        dsimp only
        rw [pqPush_length, hfil2, Finset.card_erase_of_mem hmem_old]
        omega
  · have hel2 : elig b s gl next = false := by
      cases helx : elig b s gl next
      · rfl
      · exact absurd helx hel
    unfold relax
    rw [if_pos hel2]
    refine ⟨⟨hinv.base, hinv.cost_bound, hinv.sorted, hinv.front_cost, hinv.lowb,
      hinv.cost_cur, hinv.exp_other, ?_, hinv.goal_front⟩, rfl⟩
    intro h2 hm he2
    rcases List.mem_append.mp hm with hd | hn
    · exact hinv.exp_done h2 hd he2
    · rcases List.mem_singleton.mp hn with rfl
      rw [hel2] at he2
      cases he2

/-- Folding the relaxation over the remaining neighbours. -/
lemma expand_minv (b : Board) (s gl cur : Hex) (c : ℕ) :
    ∀ (ns done : List Hex) (st : SState),
      bNeighbors b cur = done ++ ns → MInv b s gl cur c done st →
      MInv b s gl cur c (done ++ ns) (ns.foldl (relax b s gl cur) st) ∧
      measureOf b (ns.foldl (relax b s gl cur) st) = measureOf b st := by
  intro ns
  induction ns with
  | nil =>
    intro done st h hinv
    exact ⟨by simpa using hinv, rfl⟩
  | cons next tail ih =>
    intro done st h hinv
    obtain ⟨h1, h2⟩ := relax_minv b s gl cur c done tail next st h hinv
    have hng : bNeighbors b cur = (done ++ [next]) ++ tail := by rw [h]; simp
    obtain ⟨h3, h4⟩ := ih (done ++ [next]) (relax b s gl cur st next) hng h1
    rw [List.foldl_cons]
    have hre : (done ++ [next]) ++ tail = done ++ next :: tail := by simp
    rw [hre] at h3
    exact ⟨h3, by rw [h4, h2]⟩

/-- After popping a non-goal head, the mid-expansion invariant holds with
no neighbour processed yet. -/
lemma pop_minv (b : Board) (s gl cur : Hex) (p : ℕ) (rest : List (Hex × ℕ)) (st : SState)
    (hfr : st.frontier = (cur, p) :: rest) (hg : cur ≠ gl) (hinv : SInv b s gl st) :
    MInv b s gl cur p [] { st with frontier := rest } := by
  have hcur : st.costSoFar cur = some p := hinv.front_cost (cur, p) (by rw [hfr]; simp)
  have hsort := hinv.sorted
  rw [hfr] at hsort
  rcases List.pairwise_cons.mp hsort with ⟨hhead, hrest⟩
  refine ⟨hinv.base, ?_, hrest, ?_, ?_, hcur, ?_, by simp, ?_⟩
  · intro h c2 hc
    exact hinv.cost_bound h c2 hc
  · intro hp hm
    exact hinv.front_cost hp (by rw [hfr]; exact List.mem_cons_of_mem _ hm)
  · intro hp hm
    exact hhead hp hm
  · intro h hcn hnin hne h2 hnb2 hel2
    have hnin2 : ∀ q : ℕ, (h, q) ∉ st.frontier := by
      intro q hq
      rw [hfr] at hq
      rcases List.mem_cons.mp hq with heq | hq2
      · exact hne (congrArg Prod.fst heq)
      · exact hnin q hq2
    exact hinv.expanded h hcn hnin2 h2 hnb2 hel2
  · intro hgn
    obtain ⟨q, hq⟩ := hinv.goal_front hgn
    rw [hfr] at hq
    rcases List.mem_cons.mp hq with heq | hq2
    · exact absurd (congrArg Prod.fst heq).symm hg
    · exact ⟨q, hq2⟩

/-- After expanding every neighbour of the popped cell, the full loop
invariant is restored. -/
lemma unpop_sinv (b : Board) (s gl cur : Hex) (c : ℕ) (st : SState)
    (hinv : MInv b s gl cur c (bNeighbors b cur) st) : SInv b s gl st := by
  refine ⟨hinv.base, hinv.cost_bound, hinv.sorted, hinv.front_cost, ?_, hinv.goal_front⟩
  intro h hcn hnin h2 hnb2 hel2
  by_cases hh : h = cur
  · subst hh
    exact hinv.exp_done h2 hnb2 hel2
  · exact hinv.exp_other h hcn hnin hh h2 hnb2 hel2

/-- The initial search state satisfies the loop invariant. -/
lemma init_sinv (b : Board) (s gl : Hex) (hs : s ∈ b.cells) : SInv b s gl (initState s) := by
  unfold initState
  have hqs : updF (fun _ => none) s (some (0 : ℕ)) s = some 0 := updF_same _ _ _
  refine ⟨⟨?_, ?_, ?_, ?_, ?_, ?_, ?_, ?_⟩, ?_, ?_, ?_, ?_, ?_⟩
  · exact hqs
  · exact updF_same (fun _ => none) s (some none)
  · intro h hhs
    dsimp only
    rw [updF_other _ _ hhs, updF_other _ _ hhs]
    simp
  · intro h hhs o ho
    dsimp only at ho
    rw [updF_other _ _ hhs] at ho
    cases ho
  · intro h p hcf
    dsimp only at hcf
    by_cases hh : h = s
    · subst hh
      rw [updF_same] at hcf
      cases Option.some.inj hcf
    · rw [updF_other _ _ hh] at hcf
      cases hcf
  · intro h c2 hc
    dsimp only at hc
    by_cases hh : h = s
    · subst hh
      rw [updF_same] at hc
      cases Option.some.inj hc
      exact ReachN.refl
    · rw [updF_other _ _ hh] at hc
      cases hc
  · intro h c2 hc n hn
    dsimp only at hc
    by_cases hh : h = s
    · subst hh
      rw [updF_same] at hc
      cases Option.some.inj hc
      omega
    · rw [updF_other _ _ hh] at hc
      cases hc
  · intro h c2 hc
    dsimp only at hc
    by_cases hh : h = s
    · subst hh
      exact hs
    · rw [updF_other _ _ hh] at hc
      cases hc
  · intro h c2 hc
    dsimp only at hc ⊢
    have hcard : 0 < (b.cells.toFinset.filter
        (fun h => updF (fun _ => none) s (some (0 : ℕ)) h ≠ none)).card := by
      refine Finset.card_pos.mpr ⟨s, Finset.mem_filter.mpr ⟨List.mem_toFinset.mpr hs, ?_⟩⟩
      rw [hqs]
      simp
    by_cases hh : h = s
    · subst hh
      rw [hqs] at hc
      cases Option.some.inj hc
      exact lt_of_lt_of_le hcard (le_of_eq rfl)
    · rw [updF_other _ _ hh] at hc
      cases hc
  · simp
  · intro hp hm
    dsimp only at hm ⊢
    rcases List.mem_singleton.mp hm with rfl
    exact hqs
  · intro h hcn hnin h2 hnb2 hel2
    dsimp only at hcn hnin
    by_cases hh : h = s
    · subst hh
      exact absurd (List.mem_singleton.mpr rfl) (hnin 0)
    · exact absurd (updF_other _ _ hh) hcn
  · intro hgn
    dsimp only at hgn ⊢
    by_cases hh : gl = s
    · subst hh
      exact ⟨0, List.mem_singleton.mpr rfl⟩
    · exact absurd (updF_other _ _ hh) hgn

/-- The fuel `cells.length + 1` exceeds the initial loop measure. -/
lemma init_measure (b : Board) (s : Hex) (hs : s ∈ b.cells) :
    measureOf b (initState s) < b.cells.length + 1 := by
  unfold measureOf initState
  dsimp only
  have hfil : b.cells.toFinset.filter (fun h => updF (fun _ => none) s (some (0 : ℕ)) h = none)
      = b.cells.toFinset.erase s := by
    ext x
    simp only [Finset.mem_filter, Finset.mem_erase]
    by_cases hx : x = s
    · subst hx
      rw [updF_same]
      simp
    · rw [updF_other _ _ hx]
      simp [hx]
  rw [hfil, Finset.card_erase_of_mem (List.mem_toFinset.mpr hs)]
  have h1 : 0 < b.cells.toFinset.card := Finset.card_pos.mpr ⟨s, List.mem_toFinset.mpr hs⟩
  have h2 : b.cells.toFinset.card ≤ b.cells.length := b.cells.toFinset_card_le
  simp only [List.length_singleton]
  omega

/-- Main loop lemma: with fuel above the measure, the loop terminates in
a state satisfying the reconstruction invariant; when the goal is
uncosted there, the frontier is empty and every costed cell is fully
expanded. -/
lemma searchLoop_post (b : Board) (s gl : Hex) :
    ∀ (fuel : ℕ) (st : SState), SInv b s gl st → measureOf b st < fuel →
      ∃ st', searchLoop b s gl fuel st = some st' ∧
        RInv b s gl st'.cameFrom st'.costSoFar ∧
        (∀ (h : Hex) (c : ℕ), st'.costSoFar h = some c → c < costedCard b st') ∧
        (st'.costSoFar gl = none → st'.frontier = [] ∧
          ∀ h : Hex, st'.costSoFar h ≠ none →
            ∀ h2 ∈ bNeighbors b h, elig b s gl h2 = true → st'.costSoFar h2 ≠ none) := by
  intro fuel
  induction fuel with
  | zero =>
    intro st _ hm
    omega
  | succ fuel ih =>
    intro st hinv hm
    cases hfr : st.frontier with
    | nil =>
      refine ⟨st, by simp [searchLoop, hfr], hinv.base, hinv.cost_bound, ?_⟩
      intro hgn
      refine ⟨hfr, ?_⟩
      intro h hcn h2 hnb2 hel2
      exact hinv.expanded h hcn (fun p hp => by rw [hfr] at hp; cases hp) h2 hnb2 hel2
    | cons hd rest =>
      obtain ⟨cur, p⟩ := hd
      by_cases hg : cur = gl
      · subst hg
        refine ⟨{ st with frontier := rest }, by simp [searchLoop, hfr], hinv.base, ?_, ?_⟩
        · intro h c2 hc
          exact hinv.cost_bound h c2 hc
        · intro hgn
          have hfc := hinv.front_cost (cur, p) (by rw [hfr]; simp)
          dsimp only at hgn
          rw [hgn] at hfc
          cases hfc
      · have hminv := pop_minv b s gl cur p rest st hfr hg hinv
        obtain ⟨hexp1, hexp2⟩ := expand_minv b s gl cur p (bNeighbors b cur) []
          { st with frontier := rest } (by simp) hminv
        rw [List.nil_append] at hexp1
        have hsinv2 := unpop_sinv b s gl cur p _ hexp1
        have hlen : st.frontier.length = rest.length + 1 := by rw [hfr]; rfl
        have hm2 : measureOf b (expand b s gl cur { st with frontier := rest }) < fuel := by
          unfold expand
          rw [hexp2]
          unfold measureOf at hm ⊢
          dsimp only
          omega
        obtain ⟨st', hst', hpost⟩ :=
          ih (expand b s gl cur { st with frontier := rest }) hsinv2 hm2
        refine ⟨st', ?_, hpost⟩
        show searchLoop b s gl (fuel + 1) st = some st'
        unfold searchLoop
        rw [hfr]
        dsimp only
        rw [if_neg hg]
        exact hst'

/-- The endpoint of a nonempty chain ignores the anchor. -/
lemma endOfFrom_cons (anchor a : Hex) (l : List Hex) :
    endOfFrom anchor (a :: l) = endOfFrom a l := by
  unfold endOfFrom
  exact List.getLastD_cons _ _ _

/-- Extending a chain by one eligible neighbour step. -/
lemma chainOK_snoc (b : Board) (s gl : Hex) :
    ∀ (l : List Hex) (anchor h2 : Hex),
      chainOK b s gl anchor l = true → h2 ∈ bNeighbors b (endOfFrom anchor l) →
      elig b s gl h2 = true →
      chainOK b s gl anchor (l ++ [h2]) = true ∧ endOfFrom anchor (l ++ [h2]) = h2 := by
  intro l
  induction l with
  | nil =>
    intro anchor h2 hc hnb hel
    refine ⟨?_, rfl⟩
    show chainOK b s gl anchor [h2] = true
    unfold chainOK
    simp [hel]
    exact ⟨hnb, rfl⟩
  | cons a rest ih =>
    intro anchor h2 hc hnb hel
    rw [chainOK] at hc
    simp only [Bool.and_eq_true, decide_eq_true_eq] at hc
    obtain ⟨⟨hmem, hela⟩, hrest⟩ := hc
    rw [endOfFrom_cons] at hnb
    obtain ⟨hch, hend⟩ := ih a h2 hrest hnb hel
    constructor
    · rw [List.cons_append, chainOK]
      simp only [Bool.and_eq_true, decide_eq_true_eq]
      exact ⟨⟨hmem, hela⟩, hch⟩
    · rw [List.cons_append, endOfFrom_cons]
      exact hend

/-- One step of the reconstruction loop. -/
lemma reconstruct_step (cf : Hex → Option (Option Hex)) (s : Hex) (f : ℕ)
    (current parent : Hex) (acc : List Hex) (hne : current ≠ s)
    (hcf : cf current = some (some parent)) :
    reconstruct cf s (f + 1) current acc = reconstruct cf s f parent (acc ++ [current]) := by
  show (if current = s then acc.reverse
    else match cf current with
      | some (some parent) => reconstruct cf s f parent (acc ++ [current])
      | _ => acc.reverse) = reconstruct cf s f parent (acc ++ [current])
  rw [if_neg hne, hcf]

/-- Reconstruction correctness: from a costed cell, the parent chain
yields a chain from start of exactly that cost, and `reconstruct`
returns it whenever the fuel covers the cost. -/
lemma recon_of_rinv (b : Board) (s gl : Hex) (cf : Hex → Option (Option Hex))
    (cost : Hex → Option ℕ) (hr : RInv b s gl cf cost) :
    ∀ (c : ℕ) (h : Hex), cost h = some c →
      ∃ l : List Hex, l.length = c ∧ chainOK b s gl s l = true ∧ endOfFrom s l = h ∧
        (l = [] ↔ h = s) ∧
        ∀ (fuel : ℕ) (acc : List Hex), c ≤ fuel →
          reconstruct cf s fuel h acc = l ++ acc.reverse := by
  intro c
  induction c with
  | zero =>
    intro h hc
    have hhs : h = s := by
      by_contra hne
      cases hcfv : cf h with
      | none => exact absurd ((hr.keys_eq h hne).mpr hcfv) (by rw [hc]; simp)
      | some o =>
        obtain ⟨p, rfl⟩ := hr.came_shape h hne o hcfv
        obtain ⟨-, -, c0, -, hch⟩ := hr.came_step h p hcfv
        rw [hc] at hch
        have := Option.some.inj hch
        omega
    subst hhs
    refine ⟨[], rfl, rfl, rfl, by simp, ?_⟩
    intro fuel acc hf
    cases fuel with
    | zero => rfl
    | succ f =>
      unfold reconstruct
      rw [if_pos rfl]
      simp
  | succ c ih =>
    intro h hc
    have hhs : h ≠ s := by
      intro hh
      rw [hh, hr.cost_start] at hc
      have := Option.some.inj hc
      omega
    have hcf2 : ∃ p, cf h = some (some p) := by
      cases hcfv : cf h with
      | none => exact absurd ((hr.keys_eq h hhs).mpr hcfv) (by rw [hc]; simp)
      | some o =>
        obtain ⟨p, rfl⟩ := hr.came_shape h hhs o hcfv
        exact ⟨p, rfl⟩
    obtain ⟨p, hp⟩ := hcf2
    obtain ⟨hnb, hel, c0, hcp, hch⟩ := hr.came_step h p hp
    rw [hc] at hch
    have hc0 : c0 = c := by
      have := Option.some.inj hch
      omega
    subst hc0
    obtain ⟨l, hlen, hch2, hend, hemp, hrec⟩ := ih p hcp
    have hsn := chainOK_snoc b s gl l s h hch2 (by rw [hend]; exact hnb) hel
    refine ⟨l ++ [h], by simp [hlen], hsn.1, hsn.2, by simp [hhs], ?_⟩
    intro fuel acc hf
    cases fuel with
    | zero => omega
    | succ f =>
      rw [reconstruct_step cf s f h p acc hhs hp, hrec f (acc ++ [h]) (by omega)]
      simp

/-- A hex neighbour step has unhalved distance exactly `2`. -/
lemma hexNeighbors_dist2 {h h2 : Hex} (hm : h2 ∈ Hex.hexNeighbors h) : Hex.dist2 h h2 = 2 := by
  unfold Hex.hexNeighbors at hm
  rcases List.mem_map.mp hm with ⟨d, hd, rfl⟩
  simp only [Hex.directions, List.mem_cons, List.not_mem_nil, or_false] at hd
  rcases hd with rfl | rfl | rfl | rfl | rfl | rfl <;>
    (unfold Hex.dist2 Hex.add; dsimp only; omega)

/-- The hex neighbour relation is symmetric (the six directions are
closed under negation). -/
lemma hexNeighbors_symm {h h2 : Hex} (hm : h2 ∈ Hex.hexNeighbors h) :
    h ∈ Hex.hexNeighbors h2 := by
  unfold Hex.hexNeighbors at hm ⊢
  rcases List.mem_map.mp hm with ⟨d, hd, rfl⟩
  simp only [Hex.directions, List.mem_cons, List.not_mem_nil, or_false] at hd
  rcases hd with rfl | rfl | rfl | rfl | rfl | rfl
  · exact List.mem_map.mpr ⟨⟨-1, 1, 0⟩, by simp [Hex.directions], by simp [Hex.add]⟩
  · exact List.mem_map.mpr ⟨⟨-1, 0, 1⟩, by simp [Hex.directions], by simp [Hex.add]⟩
  · exact List.mem_map.mpr ⟨⟨0, -1, 1⟩, by simp [Hex.directions], by simp [Hex.add]⟩
  · exact List.mem_map.mpr ⟨⟨1, -1, 0⟩, by simp [Hex.directions], by simp [Hex.add]⟩
  · exact List.mem_map.mpr ⟨⟨1, 0, -1⟩, by simp [Hex.directions], by simp [Hex.add]⟩
  · exact List.mem_map.mpr ⟨⟨0, 1, -1⟩, by simp [Hex.directions], by simp [Hex.add]⟩

/-- A hex is not its own neighbour. -/
lemma hex_not_self_neighbor (h : Hex) : h ∉ Hex.hexNeighbors h := by
  obtain ⟨hq0, hr0, hs0⟩ := h
  unfold Hex.hexNeighbors
  intro hm
  rcases List.mem_map.mp hm with ⟨d, hd, heq⟩
  simp only [Hex.directions, List.mem_cons, List.not_mem_nil, or_false] at hd
  rcases hd with rfl | rfl | rfl | rfl | rfl | rfl <;>
    (simp only [Hex.add, Hex.mk.injEq] at heq; omega)

/-- Triangle inequality for the unhalved hex distance. -/
lemma dist2_triangle (a b c : Hex) : Hex.dist2 a c ≤ Hex.dist2 a b + Hex.dist2 b c := by
  unfold Hex.dist2
  omega

/-- Every chain of `n` eligible steps covers at most hex distance `n`. -/
lemma reachN_dist2 (b : Board) (s gl : Hex) :
    ∀ (n : ℕ) (h : Hex), ReachN b s gl n h → Hex.dist2 s h ≤ 2 * n := by
  intro n h hr
  induction hr with
  | refl =>
    unfold Hex.dist2
    omega
  | step hr0 hnb hel ih =>
    rename_i m h0 h1
    have h2 : Hex.dist2 h0 h1 = 2 := hexNeighbors_dist2 (bNeighbors_mem_hex hnb)
    have h3 := dist2_triangle s h0 h1
    omega

/-- Chain cells other than the start lie in the grid. -/
lemma reachN_mem_cells (b : Board) (s gl : Hex) :
    ∀ (n : ℕ) (h : Hex), ReachN b s gl n h → h = s ∨ h ∈ b.cells := by
  intro n h hr
  cases hr with
  | refl => exact Or.inl rfl
  | step hr0 hnb hel => exact Or.inr (bNeighbors_mem_cells hnb)

/-- A boolean chain witnesses reachability. -/
lemma chainOK_reachN (b : Board) (s gl : Hex) :
    ∀ (l : List Hex) (anchor : Hex) (n : ℕ),
      chainOK b s gl anchor l = true → ReachN b s gl n anchor →
      ReachN b s gl (n + l.length) (endOfFrom anchor l) := by
  intro l
  induction l with
  | nil =>
    intro anchor n hc hr
    simpa using hr
  | cons a rest ih =>
    intro anchor n hc hr
    rw [chainOK] at hc
    simp only [Bool.and_eq_true, decide_eq_true_eq] at hc
    obtain ⟨⟨hmem, hela⟩, hrest⟩ := hc
    have hstep : ReachN b s gl (n + 1) a := ReachN.step hr hmem hela
    have hih := ih a (n + 1) hrest hstep
    have harith : n + (a :: rest).length = n + 1 + rest.length := by
      simp [List.length_cons]
      omega
    rw [endOfFrom_cons, harith]
    exact hih

/-- Master characterisation of `pathBetween`: it returns the not-found
signal exactly on unreachable goals, and a found path is a valid eligible
chain from the step after start to the goal of minimal length. -/
lemma pathBetween_main (b : Board) (s gl : Hex) (hs : s ∈ b.cells) :
    (pathBetween b s gl = none → ∀ n : ℕ, ¬ ReachN b s gl n gl) ∧
    (∀ p : List Hex, pathBetween b s gl = some p →
      chainOK b s gl s p = true ∧ endOfFrom s p = gl ∧
      (∀ n : ℕ, ReachN b s gl n gl → p.length ≤ n) ∧ ReachN b s gl p.length gl) := by
  obtain ⟨st', hloop, hrinv, hbound, hunr⟩ :=
    searchLoop_post b s gl (b.cells.length + 1) (initState s) (init_sinv b s gl hs)
      (init_measure b s hs)
  unfold pathBetween
  rw [hloop]
  dsimp only
  cases hcg : st'.costSoFar gl with
  | none =>
    have hgs : gl ≠ s := by
      intro hh
      rw [hh, hrinv.cost_start] at hcg
      cases hcg
    have hcf : st'.cameFrom gl = none := (hrinv.keys_eq gl hgs).mp hcg
    rw [hcf]
    dsimp only
    obtain ⟨hfr, hexp⟩ := hunr hcg
    constructor
    · rintro - n
      induction n using Nat.strong_induction_on with
      | _ n ihn =>
        intro hr
        rcases frontier_block b s gl gl st' hrinv.cost_start
            (fun hp hm => absurd hm (by rw [hfr]; simp))
            hrinv.cost_min
            (fun h hcn hnin hne h2 hnb2 hel2 => hexp h hcn h2 hnb2 hel2)
            n gl hr hcg with ⟨hp, hm, -⟩ | ⟨m, hm, hrx⟩
        · rw [hfr] at hm
          cases hm
        · exact ihn m hm hrx
    · intro p hp
      cases hp
  | some c =>
    have hco : ∃ o, st'.cameFrom gl = some o := by
      by_cases hgs : gl = s
      · subst hgs
        exact ⟨none, hrinv.came_start⟩
      · cases hcfv : st'.cameFrom gl with
        | none => exact absurd ((hrinv.keys_eq gl hgs).mpr hcfv) (by rw [hcg]; simp)
        | some o => exact ⟨o, rfl⟩
    obtain ⟨o, ho⟩ := hco
    rw [ho]
    dsimp only
    obtain ⟨l, hlen, hchain, hend, hemp, hrec⟩ := recon_of_rinv b s gl _ _ hrinv c gl hcg
    have hcle : c ≤ b.cells.length := by
      have h1 := hbound gl c hcg
      have h2 : costedCard b st' ≤ b.cells.toFinset.card := Finset.card_filter_le _ _
      have h3 := b.cells.toFinset_card_le
      unfold costedCard at h1 h2
      omega
    rw [hrec (b.cells.length + 1) [] (by omega)]
    constructor
    · intro hfalse
      cases hfalse
    · intro p hp
      have hpl : l = p := by
        have hinj := Option.some.inj hp
        simpa using hinj
      subst hpl
      refine ⟨hchain, hend, ?_, ?_⟩
      · intro n hn
        have := hrinv.cost_min gl c hcg n hn
        omega
      · rw [hlen]
        exact hrinv.cost_reach gl c hcg

/-- C1: for every grid, start cell and goal cell, `pathBetween` returns
an ordered sequence from the step after start to the goal inclusive in
which every consecutive pair are grid neighbours (and every cell is an
eligible expansion target — pathable, or the start or goal themselves,
whatever their terrain); when an unobstructed geodesic exists (a chain of
in-grid eligible cells of length exactly `distance start goal`), the
returned path has length `distance start goal`; when the goal is fully
enclosed by barrier cells (every in-grid neighbour unpathable, the start
not among them), it returns the not-found signal `none`; and the
start/goal eligibility exemption is observable: an adjacent goal is
reached in one step regardless of the terrain of start and goal. -/
theorem c1_pathBetween_correct (b : Board) (start goal : Hex)
    (hs : start ∈ b.cells) (_hg : goal ∈ b.cells) :
    (∀ p : List Hex, pathBetween b start goal = some p →
      chainOK b start goal start p = true ∧ endOfFrom start p = goal ∧
      (p = [] ↔ start = goal)) ∧
    (∀ l : List Hex, chainOK b start goal start l = true → endOfFrom start l = goal →
      2 * l.length = Hex.dist2 start goal →
      ∃ p : List Hex, pathBetween b start goal = some p ∧
        (p.length : ℚ) = Hex.distance start goal) ∧
    ((∀ h ∈ bNeighbors b goal, b.pathable h = false) → start ≠ goal →
      start ∉ bNeighbors b goal → pathBetween b start goal = none) ∧
    (goal ∈ bNeighbors b start → start ≠ goal →
      pathBetween b start goal = some [goal]) := by
  have hmain := pathBetween_main b start goal hs
  have hdd : Hex.distance start goal = (Hex.dist2 start goal : ℚ) / 2 := by
    unfold Hex.distance Hex.dist2
    push_cast
    ring
  have hpart1 : ∀ p : List Hex, pathBetween b start goal = some p →
      chainOK b start goal start p = true ∧ endOfFrom start p = goal ∧
      (p = [] ↔ start = goal) := by
    intro p hp
    obtain ⟨hch, hend, hmin, hreach⟩ := hmain.2 p hp
    refine ⟨hch, hend, ?_, ?_⟩
    · intro hpe
      rw [hpe] at hend
      exact hend
    · intro hsg
      have h0 : ReachN b start goal 0 goal := by
        rw [← hsg]
        exact ReachN.refl
      have := hmin 0 h0
      exact List.eq_nil_of_length_eq_zero (by omega)
  have hpart2 : ∀ l : List Hex, chainOK b start goal start l = true →
      endOfFrom start l = goal → 2 * l.length = Hex.dist2 start goal →
      ∃ p : List Hex, pathBetween b start goal = some p ∧
        (p.length : ℚ) = Hex.distance start goal := by
    intro l hch hend hd2
    have hr : ReachN b start goal l.length goal := by
      have hr0 := chainOK_reachN b start goal l start 0 hch ReachN.refl
      rw [hend] at hr0
      simpa using hr0
    cases hpb : pathBetween b start goal with
    | none => exact absurd hr (hmain.1 hpb l.length)
    | some p =>
      obtain ⟨hchp, hendp, hminp, hreachp⟩ := hmain.2 p hpb
      have h1 : p.length ≤ l.length := hminp _ hr
      have h2 : Hex.dist2 start goal ≤ 2 * p.length := reachN_dist2 b start goal _ _ hreachp
      have hlen : p.length = l.length := by omega
      refine ⟨p, rfl, ?_⟩
      rw [hdd, ← hd2, hlen]
      push_cast
      ring
  refine ⟨hpart1, hpart2, ?_, ?_⟩
  · intro hbar hne hnadj
    cases hpb : pathBetween b start goal with
    | none => rfl
    | some p =>
      exfalso
      obtain ⟨hchp, hendp, -, hreachp⟩ := hmain.2 p hpb
      obtain ⟨n, hn⟩ : ∃ n : ℕ, ReachN b start goal n goal := ⟨p.length, hreachp⟩
      cases hn with
      | refl => exact hne rfl
      | step hr0 hnb hel =>
        rename_i m h0
        have hhex : goal ∈ Hex.hexNeighbors h0 := bNeighbors_mem_hex hnb
        have hsym : h0 ∈ Hex.hexNeighbors goal := hexNeighbors_symm hhex
        by_cases hh0s : h0 = start
        · subst hh0s
          exact hnadj (mem_bNeighbors hsym hs)
        · have hcells : h0 ∈ b.cells := by
            rcases reachN_mem_cells b start goal m h0 hr0 with h | h
            · exact absurd h hh0s
            · exact h
          have hbn : h0 ∈ bNeighbors b goal := mem_bNeighbors hsym hcells
          have hpf : b.pathable h0 = false := hbar h0 hbn
          cases hr0 with
          | refl => exact hh0s rfl
          | step hr1 hnb1 hel1 =>
            unfold elig at hel1
            simp only [Bool.or_eq_true, decide_eq_true_eq] at hel1
            rcases hel1 with (hel1 | hel1) | hel1
            · exact hh0s hel1
            · subst hel1
              exact hex_not_self_neighbor h0 hhex
            · rw [hpf] at hel1
              cases hel1
  · intro hadj hne
    have hch : chainOK b start goal start [goal] = true := by
      unfold chainOK
      simp only [Bool.and_eq_true, decide_eq_true_eq]
      refine ⟨⟨hadj, ?_⟩, rfl⟩
      unfold elig
      simp
    have hd2 : 2 * ([goal] : List Hex).length = Hex.dist2 start goal := by
      have h2 := hexNeighbors_dist2 (bNeighbors_mem_hex hadj)
      rw [h2]
      rfl
    obtain ⟨p, hp, hplen⟩ := hpart2 [goal] hch rfl hd2
    have hlen1 : p.length = 1 := by
      have hq1 : Hex.distance start goal = 1 := by
        have h2 := hexNeighbors_dist2 (bNeighbors_mem_hex hadj)
        rw [hdd, h2]
        norm_num
      rw [hq1] at hplen
      exact_mod_cast hplen
    obtain ⟨hchp, hendp, -⟩ := hpart1 p hp
    cases p with
    | nil => simp at hlen1
    | cons x rest =>
      cases rest with
      | nil =>
        have hx : x = goal := hendp
        subst hx
        exact hp
      | cons y rest2 =>
        simp at hlen1

/-- Witness for C1 on a concrete three-cell board: the unobstructed
geodesic hypothesis is discharged by computation, and the returned path
length equals the hex distance. -/
theorem c1_pathBetween_correct_witness :
    ((⟨0, 0, 0⟩ : Hex) ∈ (Board.mk [⟨0, 0, 0⟩, ⟨1, -1, 0⟩, ⟨2, -2, 0⟩] (fun _ => true)).cells) ∧
    ((⟨2, -2, 0⟩ : Hex) ∈ (Board.mk [⟨0, 0, 0⟩, ⟨1, -1, 0⟩, ⟨2, -2, 0⟩] (fun _ => true)).cells) ∧
    (chainOK (Board.mk [⟨0, 0, 0⟩, ⟨1, -1, 0⟩, ⟨2, -2, 0⟩] (fun _ => true)) ⟨0, 0, 0⟩ ⟨2, -2, 0⟩
      ⟨0, 0, 0⟩ [⟨1, -1, 0⟩, ⟨2, -2, 0⟩] = true) ∧
    ∃ p : List Hex,
      pathBetween (Board.mk [⟨0, 0, 0⟩, ⟨1, -1, 0⟩, ⟨2, -2, 0⟩] (fun _ => true))
        ⟨0, 0, 0⟩ ⟨2, -2, 0⟩ = some p ∧
      (p.length : ℚ) = Hex.distance ⟨0, 0, 0⟩ ⟨2, -2, 0⟩ :=
  ⟨by decide, by decide, by decide,
    ((c1_pathBetween_correct (Board.mk [⟨0, 0, 0⟩, ⟨1, -1, 0⟩, ⟨2, -2, 0⟩] (fun _ => true))
      ⟨0, 0, 0⟩ ⟨2, -2, 0⟩ (by decide) (by decide)).2.1) [⟨1, -1, 0⟩, ⟨2, -2, 0⟩]
      (by decide) (by decide) (by decide)⟩

end Pathspire
